import Mathlib

/-!
# Keyboard focus resolution (`ui/app/internal/input/key.go`)

A shallow embedding of the `keyQueue` of package `input`: the per-frame walk over
the declaration stream (`resolveFocus`), the frame coordinator (`Frame`), event
delivery to the focused listener (`Push`) and the tie-break rule (`replaces`).

* A listener identity (`input.Key`, an interface value used only as a map key and
  compared with `==`) is a natural number; the nil interface is `none`.
* The event sink (`*handlerEvents`) is the list of the calls made on it, oldest first.
* The operation reader (`ops.Reader`) is the list of the records it has yet to decode.
* Go recursion is bounded here by a fuel argument; `Fault.fuel` is the only outcome
  of the model that the Go code does not have.
-/

namespace input

/-! ## Data model -/

/-- Listener identity: a non-nil `input.Key`. -/
abbrev Key := Nat

/-- The directive `TextInputState` (key.go 13, 35-39). -/
inductive TextInputState where
  | TextInputKeep
  | TextInputClose
  | TextInputOpen
  deriving DecidableEq

/-- The priority `listenerPriority` (key.go 26-33). -/
inductive listenerPriority where
  | priNone
  | priDefault
  | priCurrentFocus
  | priNewFocus
  deriving DecidableEq

/-- The numeric value given to each priority by `iota`. -/
def listenerPriority.toNat : listenerPriority → Nat
  | .priNone => 0
  | .priDefault => 1
  | .priCurrentFocus => 2
  | .priNewFocus => 3

/-- The tie-break `func (p listenerPriority) replaces(p2)` (key.go 137-140):
`p > p2 || p == p2 && p == priNewFocus`. -/
def listenerPriority.replaces (p p2 : listenerPriority) : Bool :=
  decide (p.toNat > p2.toNat) || (decide (p = p2) && decide (p = .priNewFocus))

/-- The record `keyHandler` (key.go 22-24). -/
structure keyHandler where
  active : Bool
  deriving DecidableEq

/-- An `input.Event`: a `key.FocusEvent` or any other event, told apart by a number. -/
inductive Event where
  | FocusEvent (Focus : Bool)
  | other (n : Nat)
  deriving DecidableEq

/-- One call made on the event sink. -/
inductive SinkCall where
  | Add (k : Key) (e : Event)
  | Set (k : Key) (es : List Event)
  deriving DecidableEq

/-- Modelled from the spec: the event sink `handlerEvents` is not part of the source
file; section 6 gives its interface, `add(identity, event)` and
`set(identity, events)`. It is the log of the calls made on it. -/
abbrev handlerEvents := List SinkCall

/-- The call `events.Add(k, e)`. -/
def handlerEvents.Add (events : handlerEvents) (k : Key) (e : Event) : handlerEvents :=
  events ++ [SinkCall.Add k e]

/-- The call `events.Set(k, es)`. -/
def handlerEvents.Set (events : handlerEvents) (k : Key) (es : List Event) : handlerEvents :=
  events ++ [SinkCall.Set k es]

/-- Modelled from the spec: a record of the declaration stream as `ops.Reader.Decode`
yields it (the reader and `opconst` are not part of the source file). The constructor
is the type tag `opconst.OpType(encOp.Data[0])`; a key handler record carries
`Data[1] != 0` and `Refs[0]`; `Other` is a record with any other tag. -/
inductive EncodedOp where
  | KeyHandler (Focus : Bool) (Key : Key)
  | HideInput
  | Push
  | Pop
  | Other (tag : Nat)
  deriving DecidableEq

/-- The decoded `key.HandlerOp`. -/
structure HandlerOp where
  Focus : Bool
  Key : Key
  deriving DecidableEq

/-- The ways a call can fail to return a result. -/
inductive Fault where
  | fuel
  | invalidOp
  deriving DecidableEq

/-- The function `decodeKeyHandlerOp` (key.go 142-150): panics with "invalid op" on a
record whose tag is not `TypeKeyHandler`. -/
def decodeKeyHandlerOp : EncodedOp → Except Fault HandlerOp
  | .KeyHandler Focus Key => .ok { Focus := Focus, Key := Key }
  | _ => .error .invalidOp

/-- The queue `keyQueue` (key.go 15-20). A nil `handlers` map and an empty one are the
same function; `reader` holds the records still to be decoded. -/
structure keyQueue where
  focus : Option Key
  handlers : Key → Option keyHandler
  reader : List EncodedOp
  state : TextInputState

/-- The zero value of `keyQueue`. -/
def keyQueue.zero : keyQueue :=
  { focus := none, handlers := fun _ => none, reader := [], state := .TextInputKeep }

/-- The method `InputState` (key.go 43-45). -/
def keyQueue.InputState (q : keyQueue) : TextInputState := q.state

/-- What `resolveFocus` returns, with the queue and the sink as it leaves them. -/
abbrev Resolved := (Option Key × listenerPriority × Bool) × keyQueue × handlerEvents

/-! ## Operations -/

/-- The loop of `resolveFocus` (key.go 96-134) with its locals `k`, `pri`, `hide`.
Each `q.reader.Decode()` takes one unit of fuel; the nested call of the `TypePush`
case is `resolveLoop` started with the zero values of the locals. -/
def keyQueue.resolveLoop : Nat → keyQueue → handlerEvents → Option Key → listenerPriority → Bool →
    Except Fault Resolved
  | 0, _, _, _, _, _ => .error .fuel
  | fuel + 1, q, events, k, pri, hide =>
    match q.reader with
    | [] => .ok ((k, pri, hide), q, events)
    | encOp :: rest =>
      let q : keyQueue := { q with reader := rest }
      match encOp with
      | .KeyHandler _ _ =>
        match decodeKeyHandlerOp encOp with
        | .error f => .error f
        | .ok op =>
          let newPri : listenerPriority :=
            if op.Focus then .priNewFocus
            else if some op.Key = q.focus then .priCurrentFocus
            else .priDefault
          let kp : Option Key × listenerPriority :=
            if newPri.replaces pri then (some op.Key, newPri) else (k, pri)
          let events : handlerEvents :=
            match q.handlers op.Key with
            | none => events.Set op.Key [Event.FocusEvent false]
            | some _ => events
          let q : keyQueue :=
            { q with handlers := Function.update q.handlers op.Key (some { active := true }) }
          resolveLoop fuel q events kp.1 kp.2 hide
      | .HideInput => resolveLoop fuel q events k pri true
      | .Push =>
        match resolveLoop fuel q events none .priNone false with
        | .error f => .error f
        | .ok ((newK, newPri, h), q, events) =>
          let hide := hide || h
          let kp : Option Key × listenerPriority :=
            if newPri.replaces pri then (newK, newPri) else (k, pri)
          resolveLoop fuel q events kp.1 kp.2 hide
      | .Pop => .ok ((k, pri, hide), q, events)
      | .Other _ => resolveLoop fuel q events k pri hide

/-- The method `resolveFocus` (key.go 92-135): the loop started with `k = nil`,
`pri = priNone`, `hide = false`. -/
def keyQueue.resolveFocus (fuel : Nat) (q : keyQueue) (events : handlerEvents) : Except Fault Resolved :=
  q.resolveLoop fuel events none .priNone false

/-- The loop `for _, h := range q.handlers { h.active = false }` (key.go 51-53). -/
def resetActive (handlers : Key → Option keyHandler) : Key → Option keyHandler :=
  fun k => (handlers k).map fun _ => { active := false }

/-- The map left by the loop of key.go 56-64: the records with `!h.active` are deleted. -/
def pruneHandlers (handlers : Key → Option keyHandler) : Key → Option keyHandler :=
  fun k => match handlers k with
    | some h => if h.active then some h else none
    | none => none

/-- Whether the loop of key.go 56-64 deletes the record of the focused identity
(the test `q.focus == k` on a deleted key). -/
def focusPruned (handlers : Key → Option keyHandler) (focus : Option Key) : Bool :=
  match focus with
  | none => false
  | some k => match handlers k with
    | some h => !h.active
    | none => false

/-- The method `Frame` (key.go 47-84). The walk is given one unit of fuel more than
the stream has records. -/
def keyQueue.Frame (q : keyQueue) (root : List EncodedOp) (events : handlerEvents) :
    Except Fault (keyQueue × handlerEvents) :=
  let q : keyQueue := { q with handlers := resetActive q.handlers }
  let q : keyQueue := { q with reader := root }
  match q.resolveFocus (root.length + 1) events with
  | .error f => .error f
  | .ok ((focus, pri, hide), q, events) =>
    let hide := hide || focusPruned q.handlers q.focus
    let q : keyQueue :=
      { q with focus := if focusPruned q.handlers q.focus then none else q.focus,
               handlers := pruneHandlers q.handlers }
    let r : keyQueue × handlerEvents × Bool :=
      if focus ≠ q.focus then
        let events : handlerEvents :=
          match q.focus with
          | some old => events.Add old (Event.FocusEvent false)
          | none => events
        let q : keyQueue := { q with focus := focus }
        match q.focus with
        | some new => (q, events.Add new (Event.FocusEvent true), hide)
        | none => (q, events, true)
      else (q, events, hide)
    let state : TextInputState :=
      if pri = .priNewFocus then .TextInputOpen
      else if r.2.2 then .TextInputClose
      else .TextInputKeep
    .ok ({ r.1 with state := state }, r.2.1)

/-- The method `Push` (key.go 86-90). -/
def keyQueue.Push (q : keyQueue) (e : Event) (events : handlerEvents) : keyQueue × handlerEvents :=
  match q.focus with
  | some k => (q, events.Add k e)
  | none => (q, events)

/-! ## Vocabulary of the claims -/

/-- The records decoded by an activation of `resolveFocus` that has `depth` callers
above it, up to the `TypePop` that ends the outermost of them (or the end of the
stream), scope markers left out. -/
def processedAt : Nat → List EncodedOp → List EncodedOp
  | _, [] => []
  | depth, op :: rest =>
    match op with
    | .Push => processedAt (depth + 1) rest
    | .Pop =>
      match depth with
      | 0 => []
      | d + 1 => processedAt d rest
    | _ => op :: processedAt depth rest

/-- The records left in the reader when the outermost of `depth + 1` nested
activations returns. -/
def remainderAt : Nat → List EncodedOp → List EncodedOp
  | _, [] => []
  | depth, op :: rest =>
    match op with
    | .Push => remainderAt (depth + 1) rest
    | .Pop =>
      match depth with
      | 0 => rest
      | d + 1 => remainderAt d rest
    | _ => remainderAt depth rest

/-- The records a `Frame` on the stream `root` decodes, scope markers left out. -/
def processed (root : List EncodedOp) : List EncodedOp := processedAt 0 root

/-- Every `TypePop` of the stream matches an earlier `TypePush`, `depth` scopes being
open at its start. -/
def popsMatchedAt : Nat → List EncodedOp → Bool
  | _, [] => true
  | depth, op :: rest =>
    match op with
    | .Push => popsMatchedAt (depth + 1) rest
    | .Pop =>
      match depth with
      | 0 => false
      | d + 1 => popsMatchedAt d rest
    | _ => popsMatchedAt depth rest

/-- Every `TypePop` of the stream matches an earlier `TypePush`. -/
def popsMatched (ops : List EncodedOp) : Bool := popsMatchedAt 0 ops

/-- The identities carried by the key handler records of a list, in order. -/
def declared (ops : List EncodedOp) : List Key :=
  ops.filterMap fun op =>
    match op with
    | .KeyHandler _ key => some key
    | _ => none

/-- The identities carried by the key handler records that request focus, in order. -/
def requests (ops : List EncodedOp) : List Key :=
  ops.filterMap fun op =>
    match op with
    | .KeyHandler true key => some key
    | _ => none

/-- The first occurrence of each identity of a list, in order. -/
def firstOccurrences : List Key → List Key
  | [] => []
  | key :: rest => key :: (firstOccurrences rest).filter fun j => decide (j ≠ key)

/-- The `events.Set` calls of a walk over `ops` that starts with the registry
`handlers`: one for each declared identity that is not registered, in the order of
the first declarations. -/
def freshSets (handlers : Key → Option keyHandler) (ops : List EncodedOp) : List SinkCall :=
  ((firstOccurrences (declared ops)).filter fun key => (handlers key).isNone).map
    fun key => SinkCall.Set key [Event.FocusEvent false]

/-- The locals of one activation of `resolveFocus` with the registry and the sink. -/
structure Walk where
  k : Option Key
  pri : listenerPriority
  hide : Bool
  handlers : Key → Option keyHandler
  events : handlerEvents

/-- The effect of one decoded record that is not a scope marker (key.go 99-123). -/
def Walk.step (focus : Option Key) (w : Walk) : EncodedOp → Walk
  | .KeyHandler Focus key =>
    let newPri : listenerPriority :=
      if Focus then .priNewFocus
      else if some key = focus then .priCurrentFocus
      else .priDefault
    let kp : Option Key × listenerPriority :=
      if newPri.replaces w.pri then (some key, newPri) else (w.k, w.pri)
    { k := kp.1,
      pri := kp.2,
      hide := w.hide,
      handlers := Function.update w.handlers key (some { active := true }),
      events :=
        match w.handlers key with
        | none => w.events.Set key [Event.FocusEvent false]
        | some _ => w.events }
  | .HideInput => { w with hide := true }
  | _ => w

/-- The locals of a fresh activation over the registry and sink of `w`. -/
def Walk.nested (w : Walk) : Walk :=
  { w with k := none, pri := .priNone, hide := false }

/-- The caller's locals `w` after a nested activation returned `v` (key.go 125-129). -/
def Walk.merge (w v : Walk) : Walk :=
  let kp : Option Key × listenerPriority :=
    if v.pri.replaces w.pri then (v.k, v.pri) else (w.k, w.pri)
  { k := kp.1,
    pri := kp.2,
    hide := w.hide || v.hide,
    handlers := v.handlers,
    events := v.events }

/-- The locals, registry and sink after an activation with `depth` callers above it
has run over `ops` from `w`. -/
def Walk.run (focus : Option Key) (depth : Nat) (ops : List EncodedOp) (w : Walk) : Walk :=
  (processedAt depth ops).foldl (Walk.step focus) w

/-- The result of a walk, packed as `resolveLoop` returns it. -/
def Walk.resolved (focus : Option Key) (st : TextInputState) (rest : List EncodedOp)
    (w : Walk) : Resolved :=
  ((w.k, w.pri, w.hide), ⟨focus, w.handlers, rest, st⟩, w.events)

/-- The locals, registry and sink with which `resolveFocus` starts on `q`. -/
def Walk.start (q : keyQueue) (events : handlerEvents) : Walk :=
  { k := none, pri := .priNone, hide := false, handlers := q.handlers, events := events }

/-- The `events.Add` calls of key.go 65-75 for the focus `old` left by the pruning and
the candidate `c`. -/
def focusAdds (old c : Option Key) : List SinkCall :=
  if c = old then []
  else
    (match old with
      | some a => [SinkCall.Add a (Event.FocusEvent false)]
      | none => [])
    ++
    (match c with
      | some b => [SinkCall.Add b (Event.FocusEvent true)]
      | none => [])

/-- The locals, registry and sink when the walk of `q.Frame root events` returns. -/
def frameWalk (q : keyQueue) (root : List EncodedOp) (events : handlerEvents) : Walk :=
  Walk.run q.focus 0 root
    (Walk.start { q with handlers := resetActive q.handlers, reader := root } events)

/-- The value of `q.focus` after the pruning loop of `q.Frame root events`
(key.go 56-64). -/
def prunedFocus (q : keyQueue) (root : List EncodedOp) (events : handlerEvents) : Option Key :=
  if focusPruned (frameWalk q root events).handlers q.focus then none else q.focus

/-- The value of `q.focus` after the pruning loop of a frame on `root`, in terms of the
stream: nil when the focused identity was registered and no processed record
declares it. -/
def focusAfterPruning (q : keyQueue) (root : List EncodedOp) : Option Key :=
  match q.focus with
  | none => none
  | some a =>
    if (q.handlers a).isSome && decide (a ∉ declared (processed root)) then none else some a

/-- The queue left by `q.Frame root events`; `q` itself if the frame does not return. -/
def keyQueue.afterFrame (q : keyQueue) (root : List EncodedOp) (events : handlerEvents) :
    keyQueue :=
  match q.Frame root events with
  | .ok r => r.1
  | .error _ => q

/-- The focus, the directive and the sink log a frame leaves, `none` if it does not
return. -/
def observe (r : Except Fault (keyQueue × handlerEvents)) :
    Option (Option Key × TextInputState × handlerEvents) :=
  match r with
  | .ok (q, events) => some (q.focus, q.InputState, events)
  | .error _ => none

/-- Whether the tag of a record is one of the four the switch of `resolveFocus` names
(key.go 98-131). -/
def EncodedOp.known : EncodedOp → Bool
  | .Other _ => false
  | _ => true

/-- Whether a record is a scope marker, `TypePush` or `TypePop`. -/
def EncodedOp.isMarker : EncodedOp → Bool
  | .Push => true
  | .Pop => true
  | _ => false

/-- Every `TypePop` of the stream matches an earlier `TypePush` and every `TypePush` is
closed, `depth` scopes being open at its start. -/
def closesAt : Nat → List EncodedOp → Bool
  | depth, [] => decide (depth = 0)
  | depth, op :: rest =>
    match op with
    | .Push => closesAt (depth + 1) rest
    | .Pop =>
      match depth with
      | 0 => false
      | d + 1 => closesAt d rest
    | _ => closesAt depth rest

/-- Whether a call on the sink is addressed to the identity `a`. -/
def SinkCall.addressedTo (a : Key) : SinkCall → Bool
  | .Add k _ => decide (k = a)
  | .Set k _ => decide (k = a)

/-- The method `Frame` with the branch `else { hide = true }` of key.go 72-74 removed;
everything else as in `keyQueue.Frame`. -/
def keyQueue.FrameWithoutNilBranch (q : keyQueue) (root : List EncodedOp)
    (events : handlerEvents) : Except Fault (keyQueue × handlerEvents) :=
  let q : keyQueue := { q with handlers := resetActive q.handlers }
  let q : keyQueue := { q with reader := root }
  match q.resolveFocus (root.length + 1) events with
  | .error f => .error f
  | .ok ((focus, pri, hide), q, events) =>
    let hide := hide || focusPruned q.handlers q.focus
    let q : keyQueue :=
      { q with focus := if focusPruned q.handlers q.focus then none else q.focus,
               handlers := pruneHandlers q.handlers }
    let r : keyQueue × handlerEvents × Bool :=
      if focus ≠ q.focus then
        let events : handlerEvents :=
          match q.focus with
          | some old => events.Add old (Event.FocusEvent false)
          | none => events
        let q : keyQueue := { q with focus := focus }
        match q.focus with
        | some new => (q, events.Add new (Event.FocusEvent true), hide)
        | none => (q, events, hide)
      else (q, events, hide)
    let state : TextInputState :=
      if pri = .priNewFocus then .TextInputOpen
      else if r.2.2 then .TextInputClose
      else .TextInputKeep
    .ok ({ r.1 with state := state }, r.2.1)

/-- The states reachable from the zero value of `keyQueue` by `Frame` and `Push` calls. -/
inductive Reachable : keyQueue → Prop where
  | zero : Reachable keyQueue.zero
  | frame (q : keyQueue) (root : List EncodedOp) (events : handlerEvents)
      (q1 : keyQueue) (ev1 : handlerEvents) :
      Reachable q → q.Frame root events = .ok (q1, ev1) → Reachable q1
  | push (q : keyQueue) (e : Event) (events : handlerEvents) :
      Reachable q → Reachable (q.Push e events).1

/-! ## The walk as a fold -/

theorem processedAt_add (ops : List EncodedOp) :
    ∀ d e : Nat, processedAt (d + 1 + e) ops
      = processedAt e ops ++ processedAt d (remainderAt e ops) := by
  induction ops with
  | nil => intro d e; simp [processedAt, remainderAt]
  | cons op rest ih =>
    intro d e
    cases op with
    | Push =>
      simp only [processedAt, remainderAt]
      exact ih d (e + 1)
    | Pop =>
      cases e with
      | zero => simp [processedAt, remainderAt]
      | succ e =>
        simp only [processedAt, remainderAt]
        exact ih d e
    | KeyHandler f key => simp [processedAt, remainderAt, ih d e]
    | HideInput => simp [processedAt, remainderAt, ih d e]
    | Other tag => simp [processedAt, remainderAt, ih d e]

theorem remainderAt_add (ops : List EncodedOp) :
    ∀ d e : Nat, remainderAt (d + 1 + e) ops = remainderAt d (remainderAt e ops) := by
  induction ops with
  | nil => intro d e; simp [remainderAt]
  | cons op rest ih =>
    intro d e
    cases op with
    | Push =>
      simp only [remainderAt]
      exact ih d (e + 1)
    | Pop =>
      cases e with
      | zero => simp [remainderAt]
      | succ e =>
        simp only [remainderAt]
        exact ih d e
    | KeyHandler f key => simp [remainderAt, ih d e]
    | HideInput => simp [remainderAt, ih d e]
    | Other tag => simp [remainderAt, ih d e]

theorem remainderAt_length_le (ops : List EncodedOp) :
    ∀ d : Nat, (remainderAt d ops).length ≤ ops.length := by
  induction ops with
  | nil => intro d; simp [remainderAt]
  | cons op rest ih =>
    intro d
    cases op with
    | Push => simp only [remainderAt, List.length_cons]; exact Nat.le_succ_of_le (ih _)
    | Pop =>
      cases d with
      | zero => simp [remainderAt]
      | succ d => simp only [remainderAt, List.length_cons]; exact Nat.le_succ_of_le (ih _)
    | KeyHandler f key => simp only [remainderAt, List.length_cons]; exact Nat.le_succ_of_le (ih _)
    | HideInput => simp only [remainderAt, List.length_cons]; exact Nat.le_succ_of_le (ih _)
    | Other tag => simp only [remainderAt, List.length_cons]; exact Nat.le_succ_of_le (ih _)

theorem Walk.merge_nested (w : Walk) : w.merge w.nested = w := by
  cases w
  simp [Walk.merge, Walk.nested, listenerPriority.replaces, listenerPriority.toNat]

theorem Walk.step_merge (focus : Option Key) (w v : Walk) (op : EncodedOp) :
    Walk.step focus (w.merge v) op = w.merge (Walk.step focus v op) := by
  obtain ⟨wk, wp, wh, whs, wev⟩ := w
  obtain ⟨vk, vp, vh, vhs, vev⟩ := v
  cases op with
  | KeyHandler f key =>
    cases f <;> cases wp <;> cases vp <;> by_cases hk : some key = focus <;>
      simp [Walk.step, Walk.merge, listenerPriority.replaces, listenerPriority.toNat, hk]
  | HideInput => simp [Walk.step, Walk.merge]
  | Push => simp [Walk.step, Walk.merge]
  | Pop => simp [Walk.step, Walk.merge]
  | Other tag => simp [Walk.step, Walk.merge]

theorem Walk.foldl_merge (focus : Option Key) (ops : List EncodedOp) :
    ∀ w v : Walk, ops.foldl (Walk.step focus) (w.merge v)
      = w.merge (ops.foldl (Walk.step focus) v) := by
  induction ops with
  | nil => intro w v; rfl
  | cons op rest ih =>
    intro w v
    simp only [List.foldl_cons, Walk.step_merge, ih]

theorem Walk.run_push (focus : Option Key) (rest : List EncodedOp) (w : Walk) :
    Walk.run focus 0 (.Push :: rest) w
      = Walk.run focus 0 (remainderAt 0 rest) (w.merge (Walk.run focus 0 rest w.nested)) := by
  have h := processedAt_add rest 0 0
  simp only [Nat.zero_add] at h
  simp only [Walk.run, processedAt, Nat.zero_add, h, List.foldl_append]
  rw [← Walk.foldl_merge, Walk.merge_nested]

theorem remainderAt_push (rest : List EncodedOp) :
    remainderAt 0 (.Push :: rest) = remainderAt 0 (remainderAt 0 rest) := by
  have h := remainderAt_add rest 0 0
  simpa [remainderAt] using h

theorem keyQueue.resolveLoop_step (focus : Option Key) (st : TextInputState) (n : Nat)
    (rest : List EncodedOp) (w : Walk) (op : EncodedOp) (h1 : op ≠ .Push) (h2 : op ≠ .Pop) :
    keyQueue.resolveLoop (n + 1) ⟨focus, w.handlers, op :: rest, st⟩ w.events w.k w.pri w.hide
      = keyQueue.resolveLoop n ⟨focus, (Walk.step focus w op).handlers, rest, st⟩
          (Walk.step focus w op).events (Walk.step focus w op).k (Walk.step focus w op).pri
          (Walk.step focus w op).hide := by
  cases op with
  | KeyHandler f key =>
    rfl
  | HideInput => rfl
  | Push => exact absurd rfl h1
  | Pop => exact absurd rfl h2
  | Other tag => rfl

theorem Walk.run_cons (focus : Option Key) (rest : List EncodedOp) (w : Walk) (op : EncodedOp)
    (h1 : op ≠ .Push) (h2 : op ≠ .Pop) (d : Nat) :
    Walk.run focus d (op :: rest) w = Walk.run focus d rest (Walk.step focus w op) := by
  cases op with
  | KeyHandler f key => simp [Walk.run, processedAt]
  | HideInput => simp [Walk.run, processedAt]
  | Push => exact absurd rfl h1
  | Pop => exact absurd rfl h2
  | Other tag => simp [Walk.run, processedAt]

theorem keyQueue.resolveLoop_eq (focus : Option Key) (st : TextInputState) :
    ∀ (n : Nat) (ops : List EncodedOp) (w : Walk), ops.length < n →
      keyQueue.resolveLoop n ⟨focus, w.handlers, ops, st⟩ w.events w.k w.pri w.hide
        = .ok (Walk.resolved focus st (remainderAt 0 ops) (Walk.run focus 0 ops w)) := by
  intro n
  induction n with
  | zero => intro ops w h; omega
  | succ n ih =>
    intro ops w h
    cases ops with
    | nil => simp [keyQueue.resolveLoop, Walk.run, processedAt, remainderAt, Walk.resolved]
    | cons op rest =>
      have hlen : rest.length < n := by simpa using h
      by_cases h1 : op = .Push
      · subst h1
        simp only [keyQueue.resolveLoop]
        have hn := ih rest w.nested hlen
        simp only [Walk.nested] at hn
        rw [hn]
        have hr : (remainderAt 0 rest).length < n :=
          lt_of_le_of_lt (remainderAt_length_le rest 0) hlen
        refine (ih (remainderAt 0 rest) (w.merge (Walk.run focus 0 rest w.nested)) hr).trans ?_
        rw [Walk.run_push, remainderAt_push]
      · by_cases h2 : op = .Pop
        · subst h2
          simp [keyQueue.resolveLoop, Walk.run, processedAt, remainderAt, Walk.resolved]
        · rw [keyQueue.resolveLoop_step focus st n rest w op h1 h2,
            Walk.run_cons focus rest w op h1 h2, ih rest _ hlen]
          cases op <;> first | rfl | exact absurd rfl h1 | exact absurd rfl h2
theorem keyQueue.resolveFocus_eq (q : keyQueue) (events : handlerEvents) (fuel : Nat)
    (h : q.reader.length < fuel) :
    q.resolveFocus fuel events
      = .ok (Walk.resolved q.focus q.state (remainderAt 0 q.reader)
          (Walk.run q.focus 0 q.reader (Walk.start q events))) := by
  obtain ⟨focus, handlers, reader, state⟩ := q
  exact keyQueue.resolveLoop_eq focus state fuel reader
    (Walk.start ⟨focus, handlers, reader, state⟩ events) h

/-- The walk of a frame: the fold over the processed records from the reset registry. -/
theorem keyQueue.Frame_eq (q : keyQueue) (root : List EncodedOp) (events : handlerEvents) :
    ∃ q1 : keyQueue, ∃ ev1 : handlerEvents,
      q.Frame root events = .ok (q1, ev1) ∧
      q1.focus = (frameWalk q root events).k ∧
      q1.handlers = pruneHandlers (frameWalk q root events).handlers ∧
      q1.reader = remainderAt 0 root ∧
      q1.state =
        (if (frameWalk q root events).pri = .priNewFocus then .TextInputOpen
         else if ((frameWalk q root events).hide
                  || focusPruned (frameWalk q root events).handlers q.focus
                  || (decide ((frameWalk q root events).k ≠ prunedFocus q root events)
                      && decide ((frameWalk q root events).k = none)))
           then .TextInputClose
         else .TextInputKeep) ∧
      ev1 = (frameWalk q root events).events
              ++ focusAdds (prunedFocus q root events) (frameWalk q root events).k := by
  have hr := keyQueue.resolveFocus_eq
    { q with handlers := resetActive q.handlers, reader := root } events (root.length + 1)
    (Nat.lt_succ_self _)
  have hw : Walk.run q.focus 0 root
      (Walk.start { q with handlers := resetActive q.handlers, reader := root } events)
      = frameWalk q root events := rfl
  have ho : ∀ w : Walk, w = frameWalk q root events →
      (if focusPruned w.handlers q.focus = true then none else q.focus)
        = prunedFocus q root events := by
    intro w hw; subst hw; rfl
  simp only [keyQueue.Frame, hr, Walk.resolved, hw, ho _ rfl]
  generalize prunedFocus q root events = old
  generalize focusPruned (frameWalk q root events).handlers q.focus = fp
  generalize frameWalk q root events = w
  obtain ⟨k, pri, hide, hs, ev⟩ := w
  by_cases hk : k = old
  · subst hk
    refine ⟨_, _, rfl, ?_⟩
    simp [focusAdds]
  · cases k with
    | none =>
      cases old with
      | none => exact absurd rfl hk
      | some a =>
        refine ⟨_, _, rfl, ?_⟩
        simp [focusAdds, handlerEvents.Add]
    | some b =>
      cases old with
      | none =>
        refine ⟨_, _, rfl, ?_⟩
        simp [focusAdds, handlerEvents.Add]
      | some a =>
        refine ⟨_, _, rfl, ?_⟩
        simp [focusAdds, handlerEvents.Add, hk]

/-! ## Registry, hide flag and sink after a walk -/

theorem declared_cons_key (f : Bool) (key : Key) (rest : List EncodedOp) :
    declared (.KeyHandler f key :: rest) = key :: declared rest := by
  simp [declared]

theorem declared_cons_of_not_key (op : EncodedOp) (rest : List EncodedOp)
    (h : ∀ f key, op ≠ .KeyHandler f key) : declared (op :: rest) = declared rest := by
  cases op with
  | KeyHandler f key => exact absurd rfl (h f key)
  | HideInput => simp [declared]
  | Push => simp [declared]
  | Pop => simp [declared]
  | Other tag => simp [declared]

theorem Walk.foldl_handlers (focus : Option Key) (xs : List EncodedOp) :
    ∀ (w : Walk) (j : Key), (xs.foldl (Walk.step focus) w).handlers j
      = if j ∈ declared xs then some { active := true } else w.handlers j := by
  induction xs with
  | nil => intro w j; simp [declared]
  | cons op rest ih =>
    intro w j
    rw [List.foldl_cons, ih]
    cases op with
    | KeyHandler f key =>
      rw [declared_cons_key]
      by_cases hj : j ∈ declared rest
      · simp [hj]
      · by_cases hjk : j = key
        · subst hjk; simp [hj, Walk.step]
        · simp [hj, hjk, Walk.step, Function.update]
    | HideInput => rw [declared_cons_of_not_key _ _ (by intro f key; simp)]; rfl
    | Push => rw [declared_cons_of_not_key _ _ (by intro f key; simp)]; rfl
    | Pop => rw [declared_cons_of_not_key _ _ (by intro f key; simp)]; rfl
    | Other tag => rw [declared_cons_of_not_key _ _ (by intro f key; simp)]; rfl

theorem Walk.foldl_hide (focus : Option Key) (xs : List EncodedOp) :
    ∀ w : Walk, (xs.foldl (Walk.step focus) w).hide
      = (w.hide || decide (EncodedOp.HideInput ∈ xs)) := by
  induction xs with
  | nil => intro w; simp
  | cons op rest ih =>
    intro w
    rw [List.foldl_cons, ih]
    cases op <;> simp [Walk.step]
theorem filter_isNone_update (handlers : Key → Option keyHandler) (key : Key) (h : keyHandler)
    (l : List Key) :
    l.filter (fun j => (Function.update handlers key (some h) j).isNone)
      = (l.filter fun j => decide (j ≠ key)).filter fun j => (handlers j).isNone := by
  rw [List.filter_filter]
  apply List.filter_congr
  intro j _
  by_cases hj : j = key
  · subst hj; simp
  · simp [Function.update, hj]

theorem freshSets_cons_key (handlers : Key → Option keyHandler) (f : Bool) (key : Key)
    (rest : List EncodedOp) :
    freshSets handlers (.KeyHandler f key :: rest)
      = (match handlers key with
          | none => [SinkCall.Set key [Event.FocusEvent false]]
          | some _ => [])
        ++ freshSets (Function.update handlers key (some { active := true })) rest := by
  simp only [freshSets, declared_cons_key, firstOccurrences, filter_isNone_update]
  cases hk : handlers key with
  | none => simp [List.filter_cons, hk, declared]
  | some h => simp [List.filter_cons, hk, declared]

theorem freshSets_cons_of_not_key (handlers : Key → Option keyHandler) (op : EncodedOp)
    (rest : List EncodedOp) (h : ∀ f key, op ≠ .KeyHandler f key) :
    freshSets handlers (op :: rest) = freshSets handlers rest := by
  simp only [freshSets, declared_cons_of_not_key op rest h]

theorem Walk.foldl_events (focus : Option Key) (xs : List EncodedOp) :
    ∀ w : Walk, (xs.foldl (Walk.step focus) w).events = w.events ++ freshSets w.handlers xs := by
  induction xs with
  | nil => intro w; simp [freshSets, declared, firstOccurrences]
  | cons op rest ih =>
    intro w
    rw [List.foldl_cons, ih]
    cases op with
    | KeyHandler f key =>
      rw [freshSets_cons_key]
      cases hk : w.handlers key with
      | none => simp [Walk.step, hk, handlerEvents.Set]
      | some h => simp [Walk.step, hk]
    | HideInput => rw [freshSets_cons_of_not_key _ _ _ (by intro f key; simp)]; rfl
    | Push => rw [freshSets_cons_of_not_key _ _ _ (by intro f key; simp)]; rfl
    | Pop => rw [freshSets_cons_of_not_key _ _ _ (by intro f key; simp)]; rfl
    | Other tag => rw [freshSets_cons_of_not_key _ _ _ (by intro f key; simp)]; rfl

/-! ## The winner of a walk -/

theorem requests_cons_true (key : Key) (rest : List EncodedOp) :
    requests (.KeyHandler true key :: rest) = key :: requests rest := by
  simp [requests]

theorem requests_cons_of_not_request (op : EncodedOp) (rest : List EncodedOp)
    (h : ∀ key, op ≠ .KeyHandler true key) : requests (op :: rest) = requests rest := by
  cases op with
  | KeyHandler f key =>
    cases f with
    | true => exact absurd rfl (h key)
    | false => simp [requests]
  | HideInput => simp [requests]
  | Push => simp [requests]
  | Pop => simp [requests]
  | Other tag => simp [requests]

theorem Walk.foldl_keep_newFocus (focus : Option Key) (xs : List EncodedOp) :
    ∀ w : Walk, requests xs = [] → w.pri = .priNewFocus →
      (xs.foldl (Walk.step focus) w).k = w.k ∧
      (xs.foldl (Walk.step focus) w).pri = .priNewFocus := by
  induction xs with
  | nil => intro w _ hp; exact ⟨rfl, hp⟩
  | cons op rest ih =>
    intro w hr hp
    rw [List.foldl_cons]
    cases op with
    | KeyHandler f key =>
      cases f with
      | true => simp [requests_cons_true] at hr
      | false =>
        rw [requests_cons_of_not_request _ _ (by intro k; simp)] at hr
        have hs : (Walk.step focus w (.KeyHandler false key)).k = w.k ∧
            (Walk.step focus w (.KeyHandler false key)).pri = .priNewFocus := by
          by_cases hk : some key = focus <;>
            simp [Walk.step, hp, hk, listenerPriority.replaces, listenerPriority.toNat]
        have := ih _ hr hs.2
        exact ⟨this.1.trans hs.1, this.2⟩
    | HideInput =>
      rw [requests_cons_of_not_request _ _ (by intro k; simp)] at hr
      exact ih _ hr hp
    | Push =>
      rw [requests_cons_of_not_request _ _ (by intro k; simp)] at hr
      exact ih _ hr hp
    | Pop =>
      rw [requests_cons_of_not_request _ _ (by intro k; simp)] at hr
      exact ih _ hr hp
    | Other tag =>
      rw [requests_cons_of_not_request _ _ (by intro k; simp)] at hr
      exact ih _ hr hp

theorem Walk.foldl_last_request (focus : Option Key) (xs : List EncodedOp) :
    ∀ w : Walk, requests xs ≠ [] →
      (xs.foldl (Walk.step focus) w).k = (requests xs).getLast? ∧
      (xs.foldl (Walk.step focus) w).pri = .priNewFocus := by
  induction xs with
  | nil => intro w h; exact absurd rfl h
  | cons op rest ih =>
    intro w h
    rw [List.foldl_cons]
    by_cases hr : requests rest = []
    · by_cases hop : ∀ key, op ≠ .KeyHandler true key
      · rw [requests_cons_of_not_request op rest hop] at h
        exact absurd hr h
      · push_neg at hop
        obtain ⟨key, rfl⟩ := hop
        have hs : (Walk.step focus w (.KeyHandler true key)).k = some key ∧
            (Walk.step focus w (.KeyHandler true key)).pri = .priNewFocus := by
          cases hp : w.pri <;>
            simp [Walk.step, hp, listenerPriority.replaces, listenerPriority.toNat]
        have := Walk.foldl_keep_newFocus focus rest _ hr hs.2
        rw [requests_cons_true, hr]
        exact ⟨this.1.trans hs.1, this.2⟩
    · have := ih (Walk.step focus w op) hr
      refine ⟨this.1.trans ?_, this.2⟩
      by_cases hop : ∀ key, op ≠ .KeyHandler true key
      · rw [requests_cons_of_not_request op rest hop]
      · push_neg at hop
        obtain ⟨key, rfl⟩ := hop
        rw [requests_cons_true]
        cases hq : requests rest with
        | nil => exact absurd hq hr
        | cons a l => simp [List.getLast?_cons_cons]

theorem Walk.foldl_keep_default (focus : Option Key) (xs : List EncodedOp) :
    ∀ w : Walk, requests xs = [] → (∀ key ∈ declared xs, some key ≠ focus) →
      w.pri = .priDefault →
      (xs.foldl (Walk.step focus) w).k = w.k ∧
      (xs.foldl (Walk.step focus) w).pri = .priDefault := by
  induction xs with
  | nil => intro w _ _ hp; exact ⟨rfl, hp⟩
  | cons op rest ih =>
    intro w hr hd hp
    rw [List.foldl_cons]
    cases op with
    | KeyHandler f key =>
      cases f with
      | true => simp [requests_cons_true] at hr
      | false =>
        rw [requests_cons_of_not_request _ _ (by intro k; simp)] at hr
        rw [declared_cons_key] at hd
        have hk : some key ≠ focus := hd key (List.mem_cons_self _ _)
        have hs : (Walk.step focus w (.KeyHandler false key)).k = w.k ∧
            (Walk.step focus w (.KeyHandler false key)).pri = .priDefault := by
          simp [Walk.step, hp, hk, listenerPriority.replaces, listenerPriority.toNat]
        have := ih _ hr (fun j hj => hd j (List.mem_cons_of_mem _ hj)) hs.2
        exact ⟨this.1.trans hs.1, this.2⟩
    | HideInput =>
      rw [requests_cons_of_not_request _ _ (by intro k; simp)] at hr
      rw [declared_cons_of_not_key _ _ (by intro f k; simp)] at hd
      exact ih _ hr hd hp
    | Push =>
      rw [requests_cons_of_not_request _ _ (by intro k; simp)] at hr
      rw [declared_cons_of_not_key _ _ (by intro f k; simp)] at hd
      exact ih _ hr hd hp
    | Pop =>
      rw [requests_cons_of_not_request _ _ (by intro k; simp)] at hr
      rw [declared_cons_of_not_key _ _ (by intro f k; simp)] at hd
      exact ih _ hr hd hp
    | Other tag =>
      rw [requests_cons_of_not_request _ _ (by intro k; simp)] at hr
      rw [declared_cons_of_not_key _ _ (by intro f k; simp)] at hd
      exact ih _ hr hd hp

theorem Walk.foldl_first_default (focus : Option Key) (xs : List EncodedOp) :
    ∀ w : Walk, requests xs = [] → (∀ key ∈ declared xs, some key ≠ focus) →
      w.k = none → w.pri = .priNone →
      (xs.foldl (Walk.step focus) w).k = (declared xs).head? ∧
      (xs.foldl (Walk.step focus) w).pri
        = (if declared xs = [] then .priNone else .priDefault) := by
  induction xs with
  | nil => intro w _ _ hk hp; simp [declared, hk, hp]
  | cons op rest ih =>
    intro w hr hd hk hp
    rw [List.foldl_cons]
    cases op with
    | KeyHandler f key =>
      cases f with
      | true => simp [requests_cons_true] at hr
      | false =>
        rw [requests_cons_of_not_request _ _ (by intro k; simp)] at hr
        rw [declared_cons_key] at hd ⊢
        have hkey : some key ≠ focus := hd key (List.mem_cons_self _ _)
        have hs : (Walk.step focus w (.KeyHandler false key)).k = some key ∧
            (Walk.step focus w (.KeyHandler false key)).pri = .priDefault := by
          simp [Walk.step, hp, hkey, listenerPriority.replaces, listenerPriority.toNat]
        have := Walk.foldl_keep_default focus rest _ hr
          (fun j hj => hd j (List.mem_cons_of_mem _ hj)) hs.2
        simp [this.1, this.2, hs.1]
    | HideInput =>
      rw [requests_cons_of_not_request _ _ (by intro k; simp)] at hr
      rw [declared_cons_of_not_key _ _ (by intro f k; simp)] at hd ⊢
      exact ih _ hr hd hk hp
    | Push =>
      rw [requests_cons_of_not_request _ _ (by intro k; simp)] at hr
      rw [declared_cons_of_not_key _ _ (by intro f k; simp)] at hd ⊢
      exact ih _ hr hd hk hp
    | Pop =>
      rw [requests_cons_of_not_request _ _ (by intro k; simp)] at hr
      rw [declared_cons_of_not_key _ _ (by intro f k; simp)] at hd ⊢
      exact ih _ hr hd hk hp
    | Other tag =>
      rw [requests_cons_of_not_request _ _ (by intro k; simp)] at hr
      rw [declared_cons_of_not_key _ _ (by intro f k; simp)] at hd ⊢
      exact ih _ hr hd hk hp

theorem Walk.foldl_keep_current (focus : Option Key) (xs : List EncodedOp) :
    ∀ w : Walk, requests xs = [] → w.pri = .priCurrentFocus →
      (xs.foldl (Walk.step focus) w).k = w.k ∧
      (xs.foldl (Walk.step focus) w).pri = .priCurrentFocus := by
  induction xs with
  | nil => intro w _ hp; exact ⟨rfl, hp⟩
  | cons op rest ih =>
    intro w hr hp
    rw [List.foldl_cons]
    cases op with
    | KeyHandler f key =>
      cases f with
      | true => simp [requests_cons_true] at hr
      | false =>
        rw [requests_cons_of_not_request _ _ (by intro k; simp)] at hr
        have hs : (Walk.step focus w (.KeyHandler false key)).k = w.k ∧
            (Walk.step focus w (.KeyHandler false key)).pri = .priCurrentFocus := by
          by_cases hk : some key = focus <;>
            simp [Walk.step, hp, hk, listenerPriority.replaces, listenerPriority.toNat]
        have := ih _ hr hs.2
        exact ⟨this.1.trans hs.1, this.2⟩
    | HideInput =>
      rw [requests_cons_of_not_request _ _ (by intro k; simp)] at hr
      exact ih _ hr hp
    | Push =>
      rw [requests_cons_of_not_request _ _ (by intro k; simp)] at hr
      exact ih _ hr hp
    | Pop =>
      rw [requests_cons_of_not_request _ _ (by intro k; simp)] at hr
      exact ih _ hr hp
    | Other tag =>
      rw [requests_cons_of_not_request _ _ (by intro k; simp)] at hr
      exact ih _ hr hp

theorem Walk.foldl_current_focus (A : Key) (xs : List EncodedOp) :
    ∀ w : Walk, requests xs = [] → A ∈ declared xs →
      w.pri ≠ .priNewFocus → w.pri ≠ .priCurrentFocus →
      (xs.foldl (Walk.step (some A)) w).k = some A ∧
      (xs.foldl (Walk.step (some A)) w).pri = .priCurrentFocus := by
  induction xs with
  | nil => intro w _ hA; simp [declared] at hA
  | cons op rest ih =>
    intro w hr hA hn hc
    rw [List.foldl_cons]
    cases op with
    | KeyHandler f key =>
      cases f with
      | true => simp [requests_cons_true] at hr
      | false =>
        rw [requests_cons_of_not_request _ _ (by intro k; simp)] at hr
        rw [declared_cons_key] at hA
        by_cases hk : key = A
        · subst hk
          have hs : (Walk.step (some key) w (.KeyHandler false key)).k = some key ∧
              (Walk.step (some key) w (.KeyHandler false key)).pri = .priCurrentFocus := by
            cases hp : w.pri <;>
              simp_all [Walk.step, listenerPriority.replaces, listenerPriority.toNat]
          have := Walk.foldl_keep_current (some key) rest _ hr hs.2
          exact ⟨this.1.trans hs.1, this.2⟩
        · have hA2 : A ∈ declared rest := by
            rcases List.mem_cons.1 hA with h | h
            · exact absurd h.symm hk
            · exact h
          have hs : (Walk.step (some A) w (.KeyHandler false key)).pri ≠ .priNewFocus ∧
              (Walk.step (some A) w (.KeyHandler false key)).pri ≠ .priCurrentFocus := by
            cases hp : w.pri <;>
              simp_all [Walk.step, listenerPriority.replaces, listenerPriority.toNat]
          exact ih _ hr hA2 hs.1 hs.2
    | HideInput =>
      rw [requests_cons_of_not_request _ _ (by intro k; simp)] at hr
      rw [declared_cons_of_not_key _ _ (by intro f k; simp)] at hA
      exact ih _ hr hA hn hc
    | Push =>
      rw [requests_cons_of_not_request _ _ (by intro k; simp)] at hr
      rw [declared_cons_of_not_key _ _ (by intro f k; simp)] at hA
      exact ih _ hr hA hn hc
    | Pop =>
      rw [requests_cons_of_not_request _ _ (by intro k; simp)] at hr
      rw [declared_cons_of_not_key _ _ (by intro f k; simp)] at hA
      exact ih _ hr hA hn hc
    | Other tag =>
      rw [requests_cons_of_not_request _ _ (by intro k; simp)] at hr
      rw [declared_cons_of_not_key _ _ (by intro f k; simp)] at hA
      exact ih _ hr hA hn hc

/-! ## The processed records of a stream -/

theorem processedAt_sublist (ops : List EncodedOp) :
    ∀ d : Nat, (processedAt d ops).Sublist ops := by
  induction ops with
  | nil => intro d; simp [processedAt]
  | cons op rest ih =>
    intro d
    cases op with
    | Push => exact (ih (d + 1)).cons _
    | Pop =>
      cases d with
      | zero => simp [processedAt]
      | succ d => exact (ih d).cons _
    | KeyHandler f key => exact (ih d).cons₂ _
    | HideInput => exact (ih d).cons₂ _
    | Other tag => exact (ih d).cons₂ _

theorem declared_processed_subset (root : List EncodedOp) (key : Key)
    (h : key ∈ declared (processed root)) : key ∈ declared root :=
  ((processedAt_sublist root 0).filterMap _).subset h

theorem requests_processed_eq_nil (root : List EncodedOp) (h : requests root = []) :
    requests (processed root) = [] := by
  have hs : (requests (processed root)).Sublist (requests root) :=
    (processedAt_sublist root 0).filterMap _
  rw [h] at hs
  exact List.sublist_nil.1 hs

theorem declared_processedAt_of_matched (ops : List EncodedOp) :
    ∀ d : Nat, popsMatchedAt d ops = true → declared (processedAt d ops) = declared ops := by
  induction ops with
  | nil => intro d _; rfl
  | cons op rest ih =>
    intro d h
    cases op with
    | Push =>
      rw [declared_cons_of_not_key _ _ (by intro f k; simp)]
      exact ih (d + 1) h
    | Pop =>
      cases d with
      | zero => simp [popsMatchedAt] at h
      | succ d =>
        rw [declared_cons_of_not_key _ _ (by intro f k; simp)]
        exact ih d h
    | KeyHandler f key =>
      simp only [processedAt, declared_cons_key]
      rw [ih d h]
    | HideInput =>
      simp only [processedAt]
      rw [declared_cons_of_not_key _ _ (by intro f k; simp),
        declared_cons_of_not_key _ _ (by intro f k; simp)]
      exact ih d h
    | Other tag =>
      simp only [processedAt]
      rw [declared_cons_of_not_key _ _ (by intro f k; simp),
        declared_cons_of_not_key _ _ (by intro f k; simp)]
      exact ih d h

theorem requests_processedAt_of_matched (ops : List EncodedOp) :
    ∀ d : Nat, popsMatchedAt d ops = true → requests (processedAt d ops) = requests ops := by
  induction ops with
  | nil => intro d _; rfl
  | cons op rest ih =>
    intro d h
    cases op with
    | Push =>
      rw [requests_cons_of_not_request _ _ (by intro k; simp)]
      exact ih (d + 1) h
    | Pop =>
      cases d with
      | zero => simp [popsMatchedAt] at h
      | succ d =>
        rw [requests_cons_of_not_request _ _ (by intro k; simp)]
        exact ih d h
    | KeyHandler f key =>
      cases f with
      | true =>
        simp only [processedAt, requests_cons_true]
        rw [ih d h]
      | false =>
        simp only [processedAt]
        rw [requests_cons_of_not_request _ _ (by intro k; simp),
          requests_cons_of_not_request _ _ (by intro k; simp)]
        exact ih d h
    | HideInput =>
      simp only [processedAt]
      rw [requests_cons_of_not_request _ _ (by intro k; simp),
        requests_cons_of_not_request _ _ (by intro k; simp)]
      exact ih d h
    | Other tag =>
      simp only [processedAt]
      rw [requests_cons_of_not_request _ _ (by intro k; simp),
        requests_cons_of_not_request _ _ (by intro k; simp)]
      exact ih d h

/-! ## The walk of a frame -/

theorem frameWalk_handlers (q : keyQueue) (root : List EncodedOp) (events : handlerEvents)
    (j : Key) :
    (frameWalk q root events).handlers j
      = if j ∈ declared (processed root) then some { active := true }
        else resetActive q.handlers j :=
  Walk.foldl_handlers q.focus (processedAt 0 root) _ j

theorem frameWalk_hide (q : keyQueue) (root : List EncodedOp) (events : handlerEvents) :
    (frameWalk q root events).hide = decide (EncodedOp.HideInput ∈ processed root) := by
  have h := Walk.foldl_hide q.focus (processedAt 0 root)
    (Walk.start { q with handlers := resetActive q.handlers, reader := root } events)
  simpa [Walk.start] using h

theorem freshSets_resetActive (handlers : Key → Option keyHandler) (xs : List EncodedOp) :
    freshSets (resetActive handlers) xs = freshSets handlers xs := by
  simp [freshSets, resetActive]

theorem frameWalk_events (q : keyQueue) (root : List EncodedOp) (events : handlerEvents) :
    (frameWalk q root events).events = events ++ freshSets q.handlers (processed root) := by
  have h := Walk.foldl_events q.focus (processedAt 0 root)
    (Walk.start { q with handlers := resetActive q.handlers, reader := root } events)
  rw [← freshSets_resetActive]
  exact h

theorem focusPruned_frameWalk (q : keyQueue) (root : List EncodedOp) (events : handlerEvents)
    (a : Key) :
    focusPruned (frameWalk q root events).handlers (some a)
      = ((q.handlers a).isSome && decide (a ∉ declared (processed root))) := by
  simp only [focusPruned, frameWalk_handlers]
  by_cases hd : a ∈ declared (processed root)
  · simp [hd]
  · cases hq : q.handlers a <;> simp [hd, resetActive, hq]

theorem prunedFocus_eq (q : keyQueue) (root : List EncodedOp) (events : handlerEvents) :
    prunedFocus q root events = focusAfterPruning q root := by
  unfold prunedFocus focusAfterPruning
  cases hf : q.focus with
  | none => simp [focusPruned]
  | some a => simp only [focusPruned_frameWalk]

theorem Walk.foldl_k_declared (focus : Option Key) (xs : List EncodedOp) :
    ∀ (w : Walk) (a : Key), (xs.foldl (Walk.step focus) w).k = some a →
      w.k = some a ∨ a ∈ declared xs := by
  induction xs with
  | nil => intro w a h; exact Or.inl h
  | cons op rest ih =>
    intro w a h
    rw [List.foldl_cons] at h
    rcases ih _ a h with h1 | h1
    · cases op with
      | KeyHandler f key =>
        rw [declared_cons_key]
        by_cases hrep : (if f then listenerPriority.priNewFocus
            else if some key = focus then .priCurrentFocus else .priDefault).replaces w.pri = true
        · simp only [Walk.step, hrep, if_true] at h1
          right; simp [Option.some.inj h1]
        · simp only [Walk.step, hrep] at h1
          exact Or.inl h1
      | HideInput => exact Or.inl h1
      | Push => exact Or.inl h1
      | Pop => exact Or.inl h1
      | Other tag => exact Or.inl h1
    · right
      cases op with
      | KeyHandler f key => rw [declared_cons_key]; exact List.mem_cons_of_mem _ h1
      | HideInput => rw [declared_cons_of_not_key _ _ (by intro f k; simp)]; exact h1
      | Push => rw [declared_cons_of_not_key _ _ (by intro f k; simp)]; exact h1
      | Pop => rw [declared_cons_of_not_key _ _ (by intro f k; simp)]; exact h1
      | Other tag => rw [declared_cons_of_not_key _ _ (by intro f k; simp)]; exact h1

theorem frameWalk_k_declared (q : keyQueue) (root : List EncodedOp) (events : handlerEvents)
    (a : Key) (h : (frameWalk q root events).k = some a) : a ∈ declared (processed root) := by
  rcases Walk.foldl_k_declared q.focus (processedAt 0 root) _ a h with h1 | h1
  · simp [Walk.start] at h1
  · exact h1

theorem Walk.foldl_pri_ne_newFocus (focus : Option Key) (xs : List EncodedOp) :
    ∀ w : Walk, requests xs = [] → w.pri ≠ .priNewFocus →
      (xs.foldl (Walk.step focus) w).pri ≠ .priNewFocus := by
  induction xs with
  | nil => intro w _ hp; exact hp
  | cons op rest ih =>
    intro w hr hp
    rw [List.foldl_cons]
    cases op with
    | KeyHandler f key =>
      cases f with
      | true => simp [requests_cons_true] at hr
      | false =>
        rw [requests_cons_of_not_request _ _ (by intro k; simp)] at hr
        apply ih _ hr
        by_cases hk : some key = focus <;> cases hw : w.pri <;>
          simp_all [Walk.step, listenerPriority.replaces, listenerPriority.toNat]
    | HideInput =>
      rw [requests_cons_of_not_request _ _ (by intro k; simp)] at hr
      exact ih _ hr hp
    | Push =>
      rw [requests_cons_of_not_request _ _ (by intro k; simp)] at hr
      exact ih _ hr hp
    | Pop =>
      rw [requests_cons_of_not_request _ _ (by intro k; simp)] at hr
      exact ih _ hr hp
    | Other tag =>
      rw [requests_cons_of_not_request _ _ (by intro k; simp)] at hr
      exact ih _ hr hp

theorem frameWalk_pri_newFocus_iff (q : keyQueue) (root : List EncodedOp)
    (events : handlerEvents) :
    (frameWalk q root events).pri = .priNewFocus ↔ requests (processed root) ≠ [] := by
  constructor
  · intro h hr
    exact Walk.foldl_pri_ne_newFocus q.focus (processedAt 0 root) _ hr
      (by simp [Walk.start]) h
  · intro h
    exact (Walk.foldl_last_request q.focus (processedAt 0 root) _ h).2

theorem frame_resolveFocus (q : keyQueue) (root : List EncodedOp) (events : handlerEvents) :
    keyQueue.resolveFocus (root.length + 1)
        { q with handlers := resetActive q.handlers, reader := root } events
      = .ok (((frameWalk q root events).k, (frameWalk q root events).pri,
              (frameWalk q root events).hide),
             { focus := q.focus, handlers := (frameWalk q root events).handlers,
               reader := remainderAt 0 root, state := q.state },
             (frameWalk q root events).events) :=
  keyQueue.resolveFocus_eq _ events (root.length + 1) (Nat.lt_succ_self _)


theorem frame_resolveFocus_exists (q : keyQueue) (root : List EncodedOp)
    (events : handlerEvents) :
    ∃ (q1 : keyQueue) (ev1 : handlerEvents),
      keyQueue.resolveFocus (root.length + 1)
          { q with handlers := resetActive q.handlers, reader := root } events
        = .ok (((frameWalk q root events).k, (frameWalk q root events).pri,
                (frameWalk q root events).hide), q1, ev1) :=
  ⟨_, _, frame_resolveFocus q root events⟩

/-! ## The winner returned by `resolveFocus` (C1, C2) and the persistence of the focus (C3) -/

/-- C1. On a stream whose every `TypePop` matches an earlier `TypePush` and that holds at
least one key handler record requesting focus, `resolveFocus` (given fuel for every
record) returns the priority `priNewFocus` and the identity of the last such record,
whatever the queue, the sink, the other records and the nesting are. -/
theorem resolveFocus_last_request_wins (q : keyQueue) (events : handlerEvents) (fuel : Nat)
    (hfuel : q.reader.length < fuel) (hm : popsMatched q.reader = true)
    (hreq : requests q.reader ≠ []) :
    ∃ (hide : Bool) (q1 : keyQueue) (ev1 : handlerEvents),
      q.resolveFocus fuel events
        = .ok ((some ((requests q.reader).getLast hreq), .priNewFocus, hide), q1, ev1) := by
  have hreq2 : requests (processedAt 0 q.reader) ≠ [] := by
    rw [requests_processedAt_of_matched q.reader 0 hm]; exact hreq
  have hw := Walk.foldl_last_request q.focus (processedAt 0 q.reader) (Walk.start q events) hreq2
  rw [requests_processedAt_of_matched q.reader 0 hm, List.getLast?_eq_getLast _ hreq] at hw
  rw [keyQueue.resolveFocus_eq q events fuel hfuel]
  simp only [Walk.resolved, Walk.run, hw.1, hw.2]
  exact ⟨_, _, _, rfl⟩

/-- C1 at a stream with two nested scopes: the request of identity 2, the last one, wins over
the request of identity 1 and over the later records of 3 (current focus) and 2. -/
theorem resolveFocus_last_request_wins_witness :
    popsMatched [.KeyHandler false 0, .Push, .KeyHandler true 1, .Push, .KeyHandler true 2,
        .Pop, .KeyHandler false 3, .Pop, .KeyHandler false 2] = true ∧
    ∃ (hide : Bool) (q1 : keyQueue) (ev1 : handlerEvents),
      keyQueue.resolveFocus 10
        { focus := some 3, handlers := fun _ => none,
          reader := [.KeyHandler false 0, .Push, .KeyHandler true 1, .Push, .KeyHandler true 2,
            .Pop, .KeyHandler false 3, .Pop, .KeyHandler false 2],
          state := .TextInputKeep } []
        = .ok ((some 2, .priNewFocus, hide), q1, ev1) :=
  ⟨by decide,
   resolveFocus_last_request_wins
    { focus := some 3, handlers := fun _ => none,
      reader := [.KeyHandler false 0, .Push, .KeyHandler true 1, .Push, .KeyHandler true 2,
        .Pop, .KeyHandler false 3, .Pop, .KeyHandler false 2],
      state := .TextInputKeep } [] 10 (by decide) (by decide) (by decide)⟩

/-- C2. On a stream whose every `TypePop` matches an earlier `TypePush`, with no key
handler record requesting focus and none carrying the identity held in `q.focus`,
`resolveFocus` returns the identity of the first key handler record with the priority
`priDefault`, and `(nil, priNone)` when the stream has no key handler record. -/
theorem resolveFocus_first_default_wins (q : keyQueue) (events : handlerEvents) (fuel : Nat)
    (hfuel : q.reader.length < fuel) (hm : popsMatched q.reader = true)
    (hreq : requests q.reader = []) (hfocus : ∀ key ∈ declared q.reader, some key ≠ q.focus) :
    ∃ (hide : Bool) (q1 : keyQueue) (ev1 : handlerEvents),
      q.resolveFocus fuel events
        = .ok (((declared q.reader).head?,
                if declared q.reader = [] then .priNone else .priDefault, hide), q1, ev1) := by
  have hw := Walk.foldl_first_default q.focus (processedAt 0 q.reader) (Walk.start q events)
    (by rw [requests_processedAt_of_matched q.reader 0 hm]; exact hreq)
    (by rw [declared_processedAt_of_matched q.reader 0 hm]; exact hfocus) rfl rfl
  rw [declared_processedAt_of_matched q.reader 0 hm] at hw
  rw [keyQueue.resolveFocus_eq q events fuel hfuel]
  simp only [Walk.resolved, Walk.run, hw.1, hw.2]
  exact ⟨_, _, _, rfl⟩

/-- C2 at a stream whose first key handler record sits in a nested scope: identity 4 wins
over identity 1 with `priDefault`. -/
theorem resolveFocus_first_default_wins_witness :
    popsMatched [.HideInput, .Push, .KeyHandler false 4, .Pop, .KeyHandler false 1,
        .KeyHandler false 4] = true ∧
    ∃ (hide : Bool) (q1 : keyQueue) (ev1 : handlerEvents),
      keyQueue.resolveFocus 7
        { focus := some 7, handlers := fun _ => none,
          reader := [.HideInput, .Push, .KeyHandler false 4, .Pop, .KeyHandler false 1,
            .KeyHandler false 4],
          state := .TextInputOpen } []
        = .ok ((some 4, .priDefault, hide), q1, ev1) :=
  ⟨by decide,
   resolveFocus_first_default_wins
    { focus := some 7, handlers := fun _ => none,
      reader := [.HideInput, .Push, .KeyHandler false 4, .Pop, .KeyHandler false 1,
        .KeyHandler false 4],
      state := .TextInputOpen } [] 7 (by decide) (by decide) (by decide) (by decide)⟩

/-- C3. In a state reachable from the zero value whose focus is the identity `A`, a frame
on a stream (every `TypePop` matched) that declares `A` and holds no focus request
resolves `A` with the priority `priCurrentFocus`, leaves the focus on `A` and makes
no `events.Add` call. -/
theorem Frame_keeps_declared_focus (q : keyQueue) (_hq : Reachable q) (A : Key)
    (hA : q.focus = some A) (root : List EncodedOp) (events : handlerEvents)
    (hm : popsMatched root = true) (hd : A ∈ declared root) (hr : requests root = []) :
    ∃ (hide : Bool) (q1 : keyQueue) (ev1 : handlerEvents) (q2 : keyQueue)
      (calls : List SinkCall),
      keyQueue.resolveFocus (root.length + 1)
          { q with handlers := resetActive q.handlers, reader := root } events
        = .ok ((some A, .priCurrentFocus, hide), q1, ev1) ∧
      q.Frame root events = .ok (q2, events ++ calls) ∧
      q2.focus = some A ∧
      ∀ k e, SinkCall.Add k e ∉ calls := by
  have hw : (frameWalk q root events).k = some A ∧
      (frameWalk q root events).pri = .priCurrentFocus := by
    have := Walk.foldl_current_focus A (processedAt 0 root)
      (Walk.start { q with handlers := resetActive q.handlers, reader := root } events)
      (by rw [requests_processedAt_of_matched root 0 hm]; exact hr)
      (by rw [declared_processedAt_of_matched root 0 hm]; exact hd)
      (by simp [Walk.start]) (by simp [Walk.start])
    simpa [frameWalk, Walk.run, hA] using this
  have hdp : A ∈ declared (processed root) := by
    unfold processed; rw [declared_processedAt_of_matched root 0 hm]; exact hd
  have hold : prunedFocus q root events = some A := by
    rw [prunedFocus_eq]; simp [focusAfterPruning, hA, hdp]
  obtain ⟨q2, ev2, hF, hfocus, -, -, -, hev⟩ := keyQueue.Frame_eq q root events
  obtain ⟨q1, ev1, hres⟩ := frame_resolveFocus_exists q root events
  rw [hw.1, hw.2] at hres
  refine ⟨_, q1, ev1, q2, freshSets q.handlers (processed root), hres, ?_, ?_, ?_⟩
  · rw [hF, hev, hold, hw.1, frameWalk_events]; simp [focusAdds]
  · rw [hfocus, hw.1]
  · intro k e hmem
    simp [freshSets] at hmem

/-- C3 at the state left by a frame that gave the focus to identity 5, and a stream that
declares identity 1 before it. -/
theorem Frame_keeps_declared_focus_witness :
    (keyQueue.zero.afterFrame [.KeyHandler true 5] []).focus = some 5 ∧
    ∃ (hide : Bool) (q1 : keyQueue) (ev1 : handlerEvents) (q2 : keyQueue)
      (calls : List SinkCall),
      keyQueue.resolveFocus 5
          { keyQueue.zero.afterFrame [.KeyHandler true 5] [] with
            handlers := resetActive (keyQueue.zero.afterFrame [.KeyHandler true 5] []).handlers,
            reader := [.KeyHandler false 1, .Push, .KeyHandler false 5, .Pop] } []
        = .ok ((some 5, .priCurrentFocus, hide), q1, ev1) ∧
      (keyQueue.zero.afterFrame [.KeyHandler true 5] []).Frame
          [.KeyHandler false 1, .Push, .KeyHandler false 5, .Pop] []
        = .ok (q2, [] ++ calls) ∧
      q2.focus = some 5 ∧
      ∀ k e, SinkCall.Add k e ∉ calls :=
  ⟨rfl,
   Frame_keeps_declared_focus (keyQueue.zero.afterFrame [.KeyHandler true 5] [])
    (Reachable.frame keyQueue.zero [.KeyHandler true 5] [] _
      [SinkCall.Set 5 [Event.FocusEvent false], SinkCall.Add 5 (Event.FocusEvent true)]
      Reachable.zero rfl)
    5 rfl [.KeyHandler false 1, .Push, .KeyHandler false 5, .Pop] []
    (by decide) (by decide) (by decide)⟩


/-! ## The directive, the notifications, the registry and the focus invariant (C4 - C8) -/

theorem pruneHandlers_frameWalk (q : keyQueue) (root : List EncodedOp) (events : handlerEvents)
    (j : Key) :
    pruneHandlers (frameWalk q root events).handlers j
      = if j ∈ declared (processed root) then some { active := true } else none := by
  simp only [pruneHandlers, frameWalk_handlers]
  by_cases hd : j ∈ declared (processed root)
  · simp [hd]
  · cases hq : q.handlers j <;> simp [hd, resetActive, hq]

theorem reachable_focus_active (q : keyQueue) (hq : Reachable q) (a : Key)
    (ha : q.focus = some a) : q.handlers a = some { active := true } := by
  induction hq with
  | zero => simp [keyQueue.zero] at ha
  | frame q root events q1 ev1 _ hF _ =>
    obtain ⟨q2, ev2, hF2, hfocus, hhandlers, -, -, -⟩ := keyQueue.Frame_eq q root events
    rw [hF] at hF2
    injection hF2 with hF2
    injection hF2 with hq2 hev2
    subst hq2
    rw [hfocus] at ha
    rw [hhandlers, pruneHandlers_frameWalk, if_pos (frameWalk_k_declared q root events a ha)]
  | push q e events _ ih =>
    have hP : (q.Push e events).1 = q := by
      unfold keyQueue.Push
      cases q.focus <;> rfl
    rw [hP] at ha ⊢
    exact ih ha

/-- C4. After any frame, `InputState()` is `TextInputOpen` exactly when `resolveFocus`
returned `priNewFocus`; otherwise it is `TextInputClose` exactly when a hide record was
processed, or the focused identity was pruned from the registry, or the focus left by
the pruning changed to nil; otherwise it is `TextInputKeep`. -/
theorem Frame_inputState (q : keyQueue) (root : List EncodedOp) (events : handlerEvents) :
    ∃ (c : Option Key) (pri : listenerPriority) (hide : Bool) (q1 : keyQueue)
      (ev1 : handlerEvents) (q2 : keyQueue) (ev2 : handlerEvents),
      keyQueue.resolveFocus (root.length + 1)
          { q with handlers := resetActive q.handlers, reader := root } events
        = .ok ((c, pri, hide), q1, ev1) ∧
      q.Frame root events = .ok (q2, ev2) ∧
      (q2.InputState = .TextInputOpen ↔ pri = .priNewFocus) ∧
      (pri ≠ .priNewFocus →
        (q2.InputState = .TextInputClose ↔
          (EncodedOp.HideInput ∈ processed root ∨
           (∃ a, q.focus = some a ∧ (q.handlers a).isSome ∧ a ∉ declared (processed root)) ∨
           (focusAfterPruning q root ≠ none ∧ c = none)))) ∧
      (pri ≠ .priNewFocus → q2.InputState ≠ .TextInputClose →
        q2.InputState = .TextInputKeep) := by
  obtain ⟨q2, ev2, hF, hfocus, -, -, hstate, -⟩ := keyQueue.Frame_eq q root events
  obtain ⟨q1, ev1, hres⟩ := frame_resolveFocus_exists q root events
  refine ⟨_, _, _, q1, ev1, q2, ev2, hres, hF, ?_, ?_, ?_⟩
  · rw [keyQueue.InputState, hstate]
    by_cases hp : (frameWalk q root events).pri = .priNewFocus
    · simp [hp]
    · simp only [hp, if_false, iff_false]
      split <;> simp
  · intro hp
    rw [keyQueue.InputState, hstate, if_neg hp, frameWalk_hide, prunedFocus_eq]
    have hpr : focusPruned (frameWalk q root events).handlers q.focus = true ↔
        ∃ a, q.focus = some a ∧ (q.handlers a).isSome ∧ a ∉ declared (processed root) := by
      cases hf : q.focus with
      | none => simp [focusPruned]
      | some a => rw [focusPruned_frameWalk]; simp
    have hne : (frameWalk q root events).k = none →
        ((frameWalk q root events).k ≠ focusAfterPruning q root ↔
          focusAfterPruning q root ≠ none) := by
      intro h; rw [h]; exact ⟨fun h1 h2 => h1 h2.symm, fun h1 h2 => h1 h2.symm⟩
    constructor
    · intro h
      split at h
      · rename_i hc
        simp only [Bool.or_eq_true, Bool.and_eq_true, decide_eq_true_eq] at hc
        rcases hc with (hc | hc) | hc
        · exact Or.inl hc
        · exact Or.inr (Or.inl (hpr.1 hc))
        · exact Or.inr (Or.inr ⟨(hne hc.2).1 hc.1, hc.2⟩)
      · simp at h
    · intro h
      have hc : ((decide (EncodedOp.HideInput ∈ processed root)
          || focusPruned (frameWalk q root events).handlers q.focus
          || (decide ((frameWalk q root events).k ≠ focusAfterPruning q root)
              && decide ((frameWalk q root events).k = none))) = true) := by
        simp only [Bool.or_eq_true, Bool.and_eq_true, decide_eq_true_eq]
        rcases h with h | h | h
        · exact Or.inl (Or.inl h)
        · exact Or.inl (Or.inr (hpr.2 h))
        · exact Or.inr ⟨(hne h.2).2 h.1, h.2⟩
      rw [if_pos hc]
  · intro hp hcl
    rw [keyQueue.InputState, hstate, if_neg hp] at hcl ⊢
    split at hcl
    · exact absurd rfl hcl
    · rename_i hc; rw [if_neg hc]


theorem freshSets_no_add (handlers : Key → Option keyHandler) (xs : List EncodedOp)
    (k : Key) (e : Event) : SinkCall.Add k e ∉ freshSets handlers xs := by
  simp [freshSets]

/-- C5. In every frame, with `old` the focus left by the pruning step and `c` the
candidate returned by `resolveFocus`: the walk makes no `events.Add` call, and after
it the frame makes none if `c = old`, and otherwise `Add(old, FocusEvent{false})` when
`old` is not nil followed by `Add(c, FocusEvent{true})` when `c` is not nil, and
nothing else; the focus is `c` afterwards. -/
theorem Frame_focus_notifications (q : keyQueue) (root : List EncodedOp)
    (events : handlerEvents) :
    ∃ (c : Option Key) (pri : listenerPriority) (hide : Bool) (q1 : keyQueue)
      (sets : List SinkCall) (q2 : keyQueue) (adds : List SinkCall),
      keyQueue.resolveFocus (root.length + 1)
          { q with handlers := resetActive q.handlers, reader := root } events
        = .ok ((c, pri, hide), q1, events ++ sets) ∧
      (∀ k e, SinkCall.Add k e ∉ sets) ∧
      q.Frame root events = .ok (q2, events ++ sets ++ adds) ∧
      (c = focusAfterPruning q root → adds = []) ∧
      (c ≠ focusAfterPruning q root →
        adds =
          (match focusAfterPruning q root with
            | some a => [SinkCall.Add a (Event.FocusEvent false)]
            | none => [])
          ++
          (match c with
            | some b => [SinkCall.Add b (Event.FocusEvent true)]
            | none => [])) ∧
      q2.focus = c := by
  obtain ⟨q2, ev2, hF, hfocus, -, -, -, hev⟩ := keyQueue.Frame_eq q root events
  obtain ⟨q1, ev1, hres⟩ := frame_resolveFocus_exists q root events
  have hres2 := hres
  rw [frame_resolveFocus] at hres2
  injection hres2 with hres2
  injection hres2 with _ hres2
  injection hres2 with _ hev1
  rw [frameWalk_events] at hev1
  subst hev1
  rw [prunedFocus_eq, frameWalk_events] at hev
  refine ⟨_, _, _, q1, freshSets q.handlers (processed root), q2,
    focusAdds (focusAfterPruning q root) (frameWalk q root events).k,
    hres, freshSets_no_add _ _, ?_, ?_, ?_, hfocus⟩
  · rw [hF, hev]
  · intro h; simp [focusAdds, h]
  · intro h; simp [focusAdds, h]

/-- C6. After any frame the registry holds exactly the identities carried by the key
handler records processed in the frame, each with `active == true`. -/
theorem Frame_registry (q : keyQueue) (root : List EncodedOp) (events : handlerEvents) :
    ∃ (q2 : keyQueue) (ev2 : handlerEvents),
      q.Frame root events = .ok (q2, ev2) ∧
      ∀ key : Key, q2.handlers key
        = if key ∈ declared (processed root) then some { active := true } else none := by
  obtain ⟨q2, ev2, hF, -, hhandlers, -, -, -⟩ := keyQueue.Frame_eq q root events
  refine ⟨q2, ev2, hF, ?_⟩
  intro key
  rw [hhandlers, pruneHandlers_frameWalk]

/-- C7. In every state reachable from the zero value by `Frame` and `Push` calls the focus
is nil or an identity registered with `active == true`. -/
theorem reachable_focus_registered (q : keyQueue) (hq : Reachable q) :
    q.focus = none ∨ ∃ a, q.focus = some a ∧ q.handlers a = some { active := true } := by
  cases hf : q.focus with
  | none => exact Or.inl rfl
  | some a => exact Or.inr ⟨a, rfl, reachable_focus_active q hq a hf⟩

/-- C7 at the state left by one frame from the zero value. -/
theorem reachable_focus_registered_witness :
    (keyQueue.zero.afterFrame
        [.KeyHandler false 2, .Push, .KeyHandler true 4, .Pop, .HideInput] []).focus = none ∨
    ∃ a, (keyQueue.zero.afterFrame
        [.KeyHandler false 2, .Push, .KeyHandler true 4, .Pop, .HideInput] []).focus = some a ∧
      (keyQueue.zero.afterFrame
        [.KeyHandler false 2, .Push, .KeyHandler true 4, .Pop, .HideInput] []).handlers a
        = some { active := true } :=
  reachable_focus_registered
    (keyQueue.zero.afterFrame [.KeyHandler false 2, .Push, .KeyHandler true 4, .Pop, .HideInput] [])
    (Reachable.frame keyQueue.zero
      [.KeyHandler false 2, .Push, .KeyHandler true 4, .Pop, .HideInput] [] _
      [SinkCall.Set 2 [Event.FocusEvent false], SinkCall.Set 4 [Event.FocusEvent false],
        SinkCall.Add 4 (Event.FocusEvent true)]
      Reachable.zero rfl)


theorem requests_subset_declared (ops : List EncodedOp) (key : Key)
    (h : key ∈ requests ops) : key ∈ declared ops := by
  induction ops with
  | nil => simp [requests] at h
  | cons op rest ih =>
    cases op with
    | KeyHandler f k =>
      rw [declared_cons_key]
      cases f with
      | true =>
        rw [requests_cons_true] at h
        rcases List.mem_cons.1 h with h | h
        · exact h ▸ List.mem_cons_self _ _
        · exact List.mem_cons_of_mem _ (ih h)
      | false =>
        rw [requests_cons_of_not_request _ _ (by intro k; simp)] at h
        exact List.mem_cons_of_mem _ (ih h)
    | HideInput =>
      rw [requests_cons_of_not_request _ _ (by intro k; simp)] at h
      rw [declared_cons_of_not_key _ _ (by intro f k; simp)]
      exact ih h
    | Push =>
      rw [requests_cons_of_not_request _ _ (by intro k; simp)] at h
      rw [declared_cons_of_not_key _ _ (by intro f k; simp)]
      exact ih h
    | Pop =>
      rw [requests_cons_of_not_request _ _ (by intro k; simp)] at h
      rw [declared_cons_of_not_key _ _ (by intro f k; simp)]
      exact ih h
    | Other tag =>
      rw [requests_cons_of_not_request _ _ (by intro k; simp)] at h
      rw [declared_cons_of_not_key _ _ (by intro f k; simp)]
      exact ih h

theorem requests_eq_nil_of_declared_eq_nil (ops : List EncodedOp) (h : declared ops = []) :
    requests ops = [] := by
  apply List.eq_nil_iff_forall_not_mem.2
  intro key hk
  have := requests_subset_declared ops key hk
  rw [h] at this
  exact absurd this (List.not_mem_nil _)

/-- C8. In a reachable state whose focus is the identity `A`, a frame on a stream that does
not declare `A` deletes `A` from the registry and leaves a focus other than `A`; if
the stream declares no listener the focus is nil and the directive `TextInputClose`;
and whenever no record requests focus the directive is `TextInputClose`. -/
theorem Frame_stale_focus (q : keyQueue) (hq : Reachable q) (A : Key)
    (hA : q.focus = some A) (root : List EncodedOp) (events : handlerEvents)
    (hnd : A ∉ declared root) :
    ∃ (q2 : keyQueue) (ev2 : handlerEvents),
      q.Frame root events = .ok (q2, ev2) ∧
      q2.handlers A = none ∧
      q2.focus ≠ some A ∧
      (declared root = [] → q2.focus = none ∧ q2.InputState = .TextInputClose) ∧
      (requests root = [] → q2.InputState = .TextInputClose) := by
  obtain ⟨q2, ev2, hF, hfocus, hhandlers, -, hstate, -⟩ := keyQueue.Frame_eq q root events
  have hreg := reachable_focus_active q hq A hA
  have hndp : A ∉ declared (processed root) := fun h => hnd (declared_processed_subset root A h)
  have hfp : focusPruned (frameWalk q root events).handlers q.focus = true := by
    rw [hA, focusPruned_frameWalk]; simp [hreg, hndp]
  have hclose : requests root = [] → q2.InputState = .TextInputClose := by
    intro hr
    have hp : (frameWalk q root events).pri ≠ .priNewFocus := by
      intro h
      exact (frameWalk_pri_newFocus_iff q root events).1 h (requests_processed_eq_nil root hr)
    rw [keyQueue.InputState, hstate, if_neg hp, hfp]
    simp
  refine ⟨q2, ev2, hF, ?_, ?_, ?_, hclose⟩
  · rw [hhandlers, pruneHandlers_frameWalk, if_neg hndp]
  · rw [hfocus]
    intro h
    exact hndp (frameWalk_k_declared q root events A h)
  · intro hd
    refine ⟨?_, hclose (requests_eq_nil_of_declared_eq_nil root hd)⟩
    rw [hfocus]
    cases hk : (frameWalk q root events).k with
    | none => rfl
    | some b =>
      have := declared_processed_subset root b (frameWalk_k_declared q root events b hk)
      rw [hd] at this
      exact absurd this (List.not_mem_nil _)

/-- C8 at the state left by a frame that gave the focus to identity 1, and a stream that
declares only identity 2. -/
theorem Frame_stale_focus_witness :
    (keyQueue.zero.afterFrame [.KeyHandler true 1] []).focus = some 1 ∧
    ∃ (q2 : keyQueue) (ev2 : handlerEvents),
      (keyQueue.zero.afterFrame [.KeyHandler true 1] []).Frame [.KeyHandler false 2] []
        = .ok (q2, ev2) ∧
      q2.handlers 1 = none ∧
      q2.focus ≠ some 1 ∧
      (declared [EncodedOp.KeyHandler false 2] = [] →
        q2.focus = none ∧ q2.InputState = .TextInputClose) ∧
      (requests [EncodedOp.KeyHandler false 2] = [] → q2.InputState = .TextInputClose) :=
  ⟨rfl,
   Frame_stale_focus (keyQueue.zero.afterFrame [.KeyHandler true 1] [])
    (Reachable.frame keyQueue.zero [.KeyHandler true 1] [] _
      [SinkCall.Set 1 [Event.FocusEvent false], SinkCall.Add 1 (Event.FocusEvent true)]
      Reachable.zero rfl)
    1 rfl [.KeyHandler false 2] [] (by decide)⟩


/-! ## The `events.Set` calls of a frame and their order (C9, C10) -/

theorem mem_firstOccurrences (l : List Key) (key : Key) :
    key ∈ firstOccurrences l ↔ key ∈ l := by
  induction l with
  | nil => simp [firstOccurrences]
  | cons a rest ih =>
    simp only [firstOccurrences, List.mem_cons, List.mem_filter, ih, decide_eq_true_eq]
    by_cases h : key = a
    · simp [h]
    · simp [h]

theorem nodup_firstOccurrences (l : List Key) : (firstOccurrences l).Nodup := by
  induction l with
  | nil => simp [firstOccurrences]
  | cons a rest ih =>
    simp only [firstOccurrences, List.nodup_cons, List.mem_filter, decide_eq_true_eq]
    exact ⟨fun h => h.2 rfl, ih.filter _⟩

theorem count_set_freshSets (handlers : Key → Option keyHandler) (xs : List EncodedOp)
    (key : Key) (es : List Event) :
    (freshSets handlers xs).count (SinkCall.Set key es)
      = if es = [Event.FocusEvent false] ∧ key ∈ declared xs ∧ handlers key = none
        then 1 else 0 := by
  have hnd : ((firstOccurrences (declared xs)).filter
      fun j => (handlers j).isNone).Nodup := (nodup_firstOccurrences _).filter _
  have hinj : Function.Injective fun j : Key => SinkCall.Set j [Event.FocusEvent false] := by
    intro a b h
    injection h
  by_cases hes : es = [Event.FocusEvent false]
  · subst hes
    unfold freshSets
    rw [List.count_map_of_injective _ _ hinj, List.count_eq_of_nodup hnd]
    simp [List.mem_filter, mem_firstOccurrences, Option.isNone_iff_eq_none]
  · rw [if_neg (fun h => hes h.1)]
    apply List.count_eq_zero.2
    intro h
    simp only [freshSets, List.mem_map] at h
    obtain ⟨j, -, hj⟩ := h
    injection hj with _ h2
    exact hes h2.symm

theorem count_set_focusAdds (old c : Option Key) (key : Key) (es : List Event) :
    (focusAdds old c).count (SinkCall.Set key es) = 0 := by
  apply List.count_eq_zero.2
  unfold focusAdds
  cases old <;> cases c <;> split <;> simp

theorem filter_set_freshSets (handlers : Key → Option keyHandler) (xs : List EncodedOp) :
    (freshSets handlers xs).filter (fun call =>
        match call with
        | .Set _ _ => true
        | .Add _ _ => false)
      = freshSets handlers xs := by
  apply List.filter_eq_self.2
  intro call h
  simp only [freshSets, List.mem_map] at h
  obtain ⟨j, -, rfl⟩ := h
  rfl

theorem filter_set_focusAdds (old c : Option Key) :
    (focusAdds old c).filter (fun call =>
        match call with
        | .Set _ _ => true
        | .Add _ _ => false)
      = [] := by
  unfold focusAdds
  cases old <;> cases c <;> split <;> simp

/-- C9. In every frame, `events.Set(K, [FocusEvent{false}])` is called exactly once for each
identity `K` that a processed key handler record carries and that was not a key of
the registry when the frame began, and `events.Set` is called for no other identity
and with no other list; the calls are made in the order of the first declarations. -/
theorem Frame_first_appearance_reset (q : keyQueue) (root : List EncodedOp)
    (events : handlerEvents) :
    ∃ (q2 : keyQueue) (calls : List SinkCall),
      q.Frame root events = .ok (q2, events ++ calls) ∧
      (∀ (K : Key) (es : List Event), calls.count (SinkCall.Set K es)
        = if es = [Event.FocusEvent false] ∧ K ∈ declared (processed root) ∧ q.handlers K = none
          then 1 else 0) ∧
      calls.filter (fun call =>
          match call with
          | .Set _ _ => true
          | .Add _ _ => false)
        = ((firstOccurrences (declared (processed root))).filter
            fun K => (q.handlers K).isNone).map
            fun K => SinkCall.Set K [Event.FocusEvent false] := by
  obtain ⟨q2, ev2, hF, -, -, -, -, hev⟩ := keyQueue.Frame_eq q root events
  rw [frameWalk_events, List.append_assoc] at hev
  subst hev
  refine ⟨q2, _, hF, ?_, ?_⟩
  · intro K es
    rw [List.count_append, count_set_freshSets, count_set_focusAdds, Nat.add_zero]
  · rw [List.filter_append, filter_set_freshSets, filter_set_focusAdds, List.append_nil]
    rfl

/-- C10. In the sink calls of a single frame every `events.Set` call precedes every
`events.Add` call; an identity that is not registered when the frame begins and
gains the focus in it receives `Set(K, [FocusEvent{false}])` among the former and
`Add(K, FocusEvent{true})` among the latter. -/
theorem Frame_sets_before_adds (q : keyQueue) (root : List EncodedOp)
    (events : handlerEvents) :
    ∃ (q2 : keyQueue) (sets adds : List SinkCall),
      q.Frame root events = .ok (q2, events ++ sets ++ adds) ∧
      (∀ call ∈ sets, ∃ k es, call = SinkCall.Set k es) ∧
      (∀ call ∈ adds, ∃ k e, call = SinkCall.Add k e) ∧
      ∀ K : Key, q.handlers K = none → q.focus ≠ some K → q2.focus = some K →
        SinkCall.Set K [Event.FocusEvent false] ∈ sets ∧
        SinkCall.Add K (Event.FocusEvent true) ∈ adds := by
  obtain ⟨q2, ev2, hF, hfocus, -, -, -, hev⟩ := keyQueue.Frame_eq q root events
  rw [frameWalk_events, prunedFocus_eq] at hev
  subst hev
  refine ⟨q2, _, _, hF, ?_, ?_, ?_⟩
  · intro call h
    simp only [freshSets, List.mem_map] at h
    obtain ⟨j, -, rfl⟩ := h
    exact ⟨_, _, rfl⟩
  · intro call h
    unfold focusAdds at h
    split at h
    · simp at h
    · cases hold : focusAfterPruning q root <;> cases hk : (frameWalk q root events).k <;>
        simp [hold, hk] at h
      · subst h; exact ⟨_, _, rfl⟩
      · subst h; exact ⟨_, _, rfl⟩
      · rcases h with h | h <;> subst h <;> exact ⟨_, _, rfl⟩
  · intro K hK hne hq2
    rw [hfocus] at hq2
    have hd : K ∈ declared (processed root) := frameWalk_k_declared q root events K hq2
    constructor
    · simp only [freshSets, List.mem_map, List.mem_filter, mem_firstOccurrences]
      exact ⟨K, ⟨hd, by simp [hK]⟩, rfl⟩
    · have hold : focusAfterPruning q root ≠ some K := by
        unfold focusAfterPruning
        cases hf : q.focus with
        | none => simp
        | some a =>
          have hak : a ≠ K := fun h => hne (by rw [hf, h])
          simp only
          split
          · simp
          · simp [hak]
      unfold focusAdds
      rw [hq2, if_neg (fun h => hold h.symm)]
      simp


/-! ## The scenarios of the specification, evaluated -/

theorem scenario_single_default :
    observe (keyQueue.zero.Frame [.KeyHandler false 0] [])
      = some (some 0, .TextInputKeep,
          [SinkCall.Set 0 [Event.FocusEvent false], SinkCall.Add 0 (Event.FocusEvent true)]) := by
  decide

theorem scenario_request_beats_default :
    observe (keyQueue.zero.Frame [.KeyHandler false 0, .KeyHandler true 1] [])
      = some (some 1, .TextInputOpen,
          [SinkCall.Set 0 [Event.FocusEvent false], SinkCall.Set 1 [Event.FocusEvent false],
            SinkCall.Add 1 (Event.FocusEvent true)]) := by
  decide

theorem scenario_focus_owner_disappears :
    observe ((keyQueue.zero.afterFrame [.KeyHandler true 0] []).Frame [] [])
      = some (none, .TextInputClose, []) := by
  decide

theorem scenario_hide_with_current_focus :
    observe ((keyQueue.zero.afterFrame [.KeyHandler true 0] []).Frame
        [.HideInput, .KeyHandler false 0] [])
      = some (some 0, .TextInputClose, []) := by
  decide

theorem scenario_nested_scopes :
    observe ((keyQueue.zero.afterFrame [.KeyHandler true 0] []).Frame
        [.KeyHandler false 1, .Push, .KeyHandler true 2, .Push, .KeyHandler true 3, .Pop,
          .KeyHandler false 0, .Pop, .Other 9, .KeyHandler false 3] [])
      = some (some 3, .TextInputOpen,
          [SinkCall.Set 1 [Event.FocusEvent false], SinkCall.Set 2 [Event.FocusEvent false],
            SinkCall.Set 3 [Event.FocusEvent false], SinkCall.Add 0 (Event.FocusEvent false),
            SinkCall.Add 3 (Event.FocusEvent true)]) := by
  decide


/-! ## Records with other tags (C11) -/

theorem processedAt_filter_known (ops : List EncodedOp) :
    ∀ d : Nat, processedAt d (ops.filter EncodedOp.known)
      = (processedAt d ops).filter EncodedOp.known := by
  induction ops with
  | nil => intro d; rfl
  | cons op rest ih =>
    intro d
    cases op with
    | Push => simp only [List.filter_cons, EncodedOp.known, if_true, processedAt]; exact ih (d + 1)
    | Pop =>
      cases d with
      | zero => simp [List.filter_cons, EncodedOp.known, processedAt]
      | succ d => simp only [List.filter_cons, EncodedOp.known, if_true, processedAt]; exact ih d
    | KeyHandler f key => simp [List.filter_cons, EncodedOp.known, processedAt, ih d]
    | HideInput => simp [List.filter_cons, EncodedOp.known, processedAt, ih d]
    | Other tag => simp [List.filter_cons, EncodedOp.known, processedAt, ih d]

theorem Walk.foldl_filter_known (focus : Option Key) (xs : List EncodedOp) :
    ∀ w : Walk, (xs.filter EncodedOp.known).foldl (Walk.step focus) w
      = xs.foldl (Walk.step focus) w := by
  induction xs with
  | nil => intro w; rfl
  | cons op rest ih =>
    intro w
    cases op with
    | Other tag => simp only [List.filter_cons, EncodedOp.known, List.foldl_cons]; exact ih w
    | Push => simp [List.filter_cons, EncodedOp.known, ih]
    | Pop => simp [List.filter_cons, EncodedOp.known, ih]
    | KeyHandler f key => simp [List.filter_cons, EncodedOp.known, ih]
    | HideInput => simp [List.filter_cons, EncodedOp.known, ih]

theorem frameWalk_filter_known (q : keyQueue) (root : List EncodedOp)
    (events : handlerEvents) :
    frameWalk q (root.filter EncodedOp.known) events = frameWalk q root events := by
  unfold frameWalk Walk.run
  rw [processedAt_filter_known, Walk.foldl_filter_known]
  rfl

/-- Two frames of the same queue whose walks end alike leave the same focus, registry,
directive and sink. -/
theorem keyQueue.Frame_congr (q : keyQueue) (root1 root2 : List EncodedOp)
    (events : handlerEvents) (h : frameWalk q root1 events = frameWalk q root2 events) :
    ∃ (q2 q3 : keyQueue) (ev2 : handlerEvents),
      q.Frame root1 events = .ok (q2, ev2) ∧
      q.Frame root2 events = .ok (q3, ev2) ∧
      q2.focus = q3.focus ∧ q2.handlers = q3.handlers ∧ q2.InputState = q3.InputState := by
  obtain ⟨a, eva, hFa, ha1, ha2, -, ha3, ha4⟩ := keyQueue.Frame_eq q root1 events
  obtain ⟨b, evb, hFb, hb1, hb2, -, hb3, hb4⟩ := keyQueue.Frame_eq q root2 events
  have hp : prunedFocus q root1 events = prunedFocus q root2 events := by
    unfold prunedFocus; rw [h]
  rw [h] at ha1 ha2
  rw [h, hp] at ha3 ha4
  refine ⟨a, b, eva, hFa, ?_, ?_, ?_, ?_⟩
  · rw [hFb, ha4, hb4]
  · rw [ha1, hb1]
  · rw [ha2, hb2]
  · rw [keyQueue.InputState, keyQueue.InputState, ha3, hb3]

/-- C11, as the code has it. A record whose tag is none of the four of the switch is
skipped: every frame returns normally, and its focus, registry, directive and sink
calls are those of the frame on the stream without such records. -/
theorem Frame_skips_other_tags (q : keyQueue) (root : List EncodedOp)
    (events : handlerEvents) :
    ∃ (q2 q3 : keyQueue) (ev2 : handlerEvents),
      q.Frame root events = .ok (q2, ev2) ∧
      q.Frame (root.filter EncodedOp.known) events = .ok (q3, ev2) ∧
      q2.focus = q3.focus ∧ q2.handlers = q3.handlers ∧ q2.InputState = q3.InputState :=
  keyQueue.Frame_congr q root (root.filter EncodedOp.known) events
    (frameWalk_filter_known q root events).symm

/-- C11 fails as stated: on a stream that holds a record with another tag the frame does
not abort; it returns, and the key handler record after that record takes the
focus. -/
theorem Frame_other_tag_not_fatal :
    EncodedOp.Other 9 ∈ [EncodedOp.Other 9, EncodedOp.KeyHandler true 1] ∧
    (¬ ∃ f, keyQueue.zero.Frame [.Other 9, .KeyHandler true 1] [] = .error f) ∧
    observe (keyQueue.zero.Frame [.Other 9, .KeyHandler true 1] [])
      = some (some 1, .TextInputOpen,
          [SinkCall.Set 1 [Event.FocusEvent false], SinkCall.Add 1 (Event.FocusEvent true)]) := by
  refine ⟨by decide, ?_, by decide⟩
  rintro ⟨f, hf⟩
  have h : observe (keyQueue.zero.Frame [.Other 9, .KeyHandler true 1] []) ≠ none := by decide
  rw [hf] at h
  exact h rfl


/-- The panic of `decodeKeyHandlerOp` is raised exactly on the records that are not key
handler records; `resolveLoop` calls it on key handler records only. -/
theorem decodeKeyHandlerOp_error_iff (op : EncodedOp) :
    decodeKeyHandlerOp op = .error .invalidOp ↔ ∀ f key, op ≠ .KeyHandler f key := by
  cases op <;> simp [decodeKeyHandlerOp]

/-! ## A `TypePop` with no open scope (C12, C18) -/

theorem split_of_not_popsMatchedAt (ops : List EncodedOp) :
    ∀ d : Nat, popsMatchedAt d ops = false →
      ∃ s t, ops = s ++ EncodedOp.Pop :: t ∧ closesAt d s = true ∧ remainderAt d ops = t := by
  induction ops with
  | nil => intro d h; simp [popsMatchedAt] at h
  | cons op rest ih =>
    intro d h
    cases op with
    | Push =>
      obtain ⟨s, t, h1, h2, h3⟩ := ih (d + 1) h
      exact ⟨.Push :: s, t, by rw [h1]; rfl, h2, h3⟩
    | Pop =>
      cases d with
      | zero => exact ⟨[], rest, rfl, rfl, rfl⟩
      | succ d =>
        obtain ⟨s, t, h1, h2, h3⟩ := ih d h
        exact ⟨.Pop :: s, t, by rw [h1]; rfl, h2, h3⟩
    | KeyHandler f key =>
      obtain ⟨s, t, h1, h2, h3⟩ := ih d h
      exact ⟨.KeyHandler f key :: s, t, by rw [h1]; rfl, h2, h3⟩
    | HideInput =>
      obtain ⟨s, t, h1, h2, h3⟩ := ih d h
      exact ⟨.HideInput :: s, t, by rw [h1]; rfl, h2, h3⟩
    | Other tag =>
      obtain ⟨s, t, h1, h2, h3⟩ := ih d h
      exact ⟨.Other tag :: s, t, by rw [h1]; rfl, h2, h3⟩

theorem processedAt_append_pop (s t : List EncodedOp) :
    ∀ d : Nat, closesAt d s = true →
      processedAt d (s ++ EncodedOp.Pop :: t) = processedAt d s := by
  induction s with
  | nil =>
    intro d h
    have hd : d = 0 := by simpa [closesAt] using h
    subst hd
    rfl
  | cons op rest ih =>
    intro d h
    cases op with
    | Push => exact ih (d + 1) h
    | Pop =>
      cases d with
      | zero => simp [closesAt] at h
      | succ d => exact ih d h
    | KeyHandler f key =>
      exact congrArg (List.cons _) (ih d h)
    | HideInput =>
      exact congrArg (List.cons _) (ih d h)
    | Other tag =>
      exact congrArg (List.cons _) (ih d h)

theorem frameWalk_append_pop (q : keyQueue) (s t : List EncodedOp) (events : handlerEvents)
    (h : closesAt 0 s = true) :
    frameWalk q (s ++ EncodedOp.Pop :: t) events = frameWalk q s events := by
  unfold frameWalk Walk.run
  rw [processedAt_append_pop s t 0 h]
  rfl

/-- C12, as the code has it. On a stream with a `TypePop` that no open `TypePush` matches
the frame returns normally: the walk ends at the first such record, and the records
after it are left undecoded in the reader. -/
theorem Frame_unmatched_pop_returns (q : keyQueue) (root : List EncodedOp)
    (events : handlerEvents) (h : popsMatched root = false) :
    ∃ (s t : List EncodedOp) (q2 : keyQueue) (ev2 : handlerEvents),
      root = s ++ EncodedOp.Pop :: t ∧ closesAt 0 s = true ∧
      q.Frame root events = .ok (q2, ev2) ∧ q2.reader = t := by
  obtain ⟨s, t, h1, h2, h3⟩ := split_of_not_popsMatchedAt root 0 h
  obtain ⟨q2, ev2, hF, -, -, hreader, -, -⟩ := keyQueue.Frame_eq q root events
  exact ⟨s, t, q2, ev2, h1, h2, hF, by rw [hreader, h3]⟩

/-- C12 at the stream of a closed scope, a stray `TypePop` and a focus request. -/
theorem Frame_unmatched_pop_returns_witness :
    popsMatched [.Push, .KeyHandler false 1, .Pop, .Pop, .KeyHandler true 2] = false ∧
    ∃ (s t : List EncodedOp) (q2 : keyQueue) (ev2 : handlerEvents),
      [EncodedOp.Push, .KeyHandler false 1, .Pop, .Pop, .KeyHandler true 2]
        = s ++ EncodedOp.Pop :: t ∧ closesAt 0 s = true ∧
      keyQueue.zero.Frame [.Push, .KeyHandler false 1, .Pop, .Pop, .KeyHandler true 2] []
        = .ok (q2, ev2) ∧ q2.reader = t :=
  ⟨by decide,
   Frame_unmatched_pop_returns keyQueue.zero
    [.Push, .KeyHandler false 1, .Pop, .Pop, .KeyHandler true 2] [] (by decide)⟩

/-- C12 fails as stated: on a stream that starts with a `TypePop` no scope is open for, the
frame does not abort; it returns with nothing processed. -/
theorem Frame_unmatched_pop_not_fatal :
    popsMatched [EncodedOp.Pop, EncodedOp.KeyHandler true 1] = false ∧
    (¬ ∃ f, keyQueue.zero.Frame [.Pop, .KeyHandler true 1] [] = .error f) ∧
    observe (keyQueue.zero.Frame [.Pop, .KeyHandler true 1] [])
      = some (none, .TextInputKeep, []) := by
  refine ⟨by decide, ?_, by decide⟩
  rintro ⟨f, hf⟩
  have h : observe (keyQueue.zero.Frame [.Pop, .KeyHandler true 1] []) ≠ none := by decide
  rw [hf] at h
  exact h rfl

/-- C18. For a stream `s` whose every `TypePop` is matched and every `TypePush` closed, and
any stream `t`, the frame on `s ++ [TypePop] ++ t` returns normally with the focus,
registry, directive and sink calls of the frame on `s`; an identity that `s` does
not declare is not registered afterwards, whatever `t` declares. -/
theorem Frame_stray_pop_truncates (q : keyQueue) (s t : List EncodedOp)
    (events : handlerEvents) (hs : closesAt 0 s = true) :
    ∃ (q2 q3 : keyQueue) (ev2 : handlerEvents),
      q.Frame (s ++ EncodedOp.Pop :: t) events = .ok (q2, ev2) ∧
      q.Frame s events = .ok (q3, ev2) ∧
      q2.focus = q3.focus ∧ q2.handlers = q3.handlers ∧ q2.InputState = q3.InputState ∧
      ∀ K : Key, K ∉ declared s → q2.handlers K = none := by
  obtain ⟨q2, q3, ev2, h1, h2, h3, h4, h5⟩ :=
    keyQueue.Frame_congr q (s ++ EncodedOp.Pop :: t) s events (frameWalk_append_pop q s t events hs)
  refine ⟨q2, q3, ev2, h1, h2, h3, h4, h5, ?_⟩
  intro K hK
  obtain ⟨q4, ev4, hF, -, hhandlers, -, -, -⟩ := keyQueue.Frame_eq q s events
  rw [h2] at hF
  injection hF with hF
  injection hF with hq _
  subst hq
  rw [h4, hhandlers, pruneHandlers_frameWalk,
    if_neg (fun h => hK (declared_processed_subset s K h))]

/-- C18 at a stream with one closed scope, followed by a stray `TypePop` and a focus
request of identity 7. -/
theorem Frame_stray_pop_truncates_witness :
    closesAt 0 [.KeyHandler false 1, .Push, .HideInput, .Pop] = true ∧
    ∃ (q2 q3 : keyQueue) (ev2 : handlerEvents),
      keyQueue.zero.Frame
          ([.KeyHandler false 1, .Push, .HideInput, .Pop] ++ EncodedOp.Pop :: [.KeyHandler true 7])
          [] = .ok (q2, ev2) ∧
      keyQueue.zero.Frame [.KeyHandler false 1, .Push, .HideInput, .Pop] [] = .ok (q3, ev2) ∧
      q2.focus = q3.focus ∧ q2.handlers = q3.handlers ∧ q2.InputState = q3.InputState ∧
      ∀ K : Key, K ∉ declared [.KeyHandler false 1, .Push, .HideInput, .Pop] →
        q2.handlers K = none :=
  ⟨by decide,
   Frame_stray_pop_truncates keyQueue.zero [.KeyHandler false 1, .Push, .HideInput, .Pop]
    [.KeyHandler true 7] [] (by decide)⟩


/-! ## What a frame reads of the queue (C13) -/

theorem Walk.step_locals_congr (focus : Option Key) (w v : Walk) (op : EncodedOp)
    (hk : w.k = v.k) (hp : w.pri = v.pri) (hh : w.hide = v.hide) :
    (Walk.step focus w op).k = (Walk.step focus v op).k ∧
    (Walk.step focus w op).pri = (Walk.step focus v op).pri ∧
    (Walk.step focus w op).hide = (Walk.step focus v op).hide := by
  cases op with
  | KeyHandler f key => simp [Walk.step, hk, hp, hh]
  | HideInput => simp [Walk.step, hk, hp]
  | Push => exact ⟨hk, hp, hh⟩
  | Pop => exact ⟨hk, hp, hh⟩
  | Other tag => exact ⟨hk, hp, hh⟩

theorem Walk.foldl_locals_congr (focus : Option Key) (xs : List EncodedOp) :
    ∀ w v : Walk, w.k = v.k → w.pri = v.pri → w.hide = v.hide →
      (xs.foldl (Walk.step focus) w).k = (xs.foldl (Walk.step focus) v).k ∧
      (xs.foldl (Walk.step focus) w).pri = (xs.foldl (Walk.step focus) v).pri ∧
      (xs.foldl (Walk.step focus) w).hide = (xs.foldl (Walk.step focus) v).hide := by
  induction xs with
  | nil => intro w v hk hp hh; exact ⟨hk, hp, hh⟩
  | cons op rest ih =>
    intro w v hk hp hh
    obtain ⟨h1, h2, h3⟩ := Walk.step_locals_congr focus w v op hk hp hh
    exact ih _ _ h1 h2 h3

theorem frameWalk_locals_congr (q1 q2 : keyQueue) (root : List EncodedOp)
    (ev1 ev2 : handlerEvents) (hf : q1.focus = q2.focus) :
    (frameWalk q1 root ev1).k = (frameWalk q2 root ev2).k ∧
    (frameWalk q1 root ev1).pri = (frameWalk q2 root ev2).pri ∧
    (frameWalk q1 root ev1).hide = (frameWalk q2 root ev2).hide := by
  unfold frameWalk Walk.run
  rw [hf]
  exact Walk.foldl_locals_congr q2.focus (processedAt 0 root) _ _ rfl rfl rfl

theorem pruneHandlers_frameWalk_congr (q1 q2 : keyQueue) (root : List EncodedOp)
    (ev1 ev2 : handlerEvents) :
    pruneHandlers (frameWalk q1 root ev1).handlers
      = pruneHandlers (frameWalk q2 root ev2).handlers := by
  funext K
  rw [pruneHandlers_frameWalk, pruneHandlers_frameWalk]

theorem focusPruned_frameWalk_reachable (q : keyQueue) (hq : Reachable q)
    (root : List EncodedOp) (events : handlerEvents) :
    focusPruned (frameWalk q root events).handlers q.focus
      = match q.focus with
        | none => false
        | some a => decide (a ∉ declared (processed root)) := by
  cases hf : q.focus with
  | none => rfl
  | some a =>
    rw [focusPruned_frameWalk, reachable_focus_active q hq a hf]
    simp

/-- C13. Two reachable states with the same focus, whatever their registries, directives
and sinks, are taken by a frame on the same stream to the same focus, the same
directive and the same registry. -/
theorem Frame_reads_only_focus (q1 q2 : keyQueue) (h1 : Reachable q1) (h2 : Reachable q2)
    (hf : q1.focus = q2.focus) (root : List EncodedOp) (ev1 ev2 : handlerEvents) :
    ∃ (a : keyQueue) (eva : handlerEvents) (b : keyQueue) (evb : handlerEvents),
      q1.Frame root ev1 = .ok (a, eva) ∧
      q2.Frame root ev2 = .ok (b, evb) ∧
      a.focus = b.focus ∧
      a.InputState = b.InputState ∧
      (∀ K : Key, (a.handlers K).isSome = (b.handlers K).isSome) ∧
      a.handlers = b.handlers := by
  obtain ⟨a, eva, hFa, ha1, ha2, -, ha3, -⟩ := keyQueue.Frame_eq q1 root ev1
  obtain ⟨b, evb, hFb, hb1, hb2, -, hb3, -⟩ := keyQueue.Frame_eq q2 root ev2
  obtain ⟨hk, hp, hh⟩ := frameWalk_locals_congr q1 q2 root ev1 ev2 hf
  have hfp : focusPruned (frameWalk q1 root ev1).handlers q1.focus
      = focusPruned (frameWalk q2 root ev2).handlers q2.focus := by
    rw [focusPruned_frameWalk_reachable q1 h1, focusPruned_frameWalk_reachable q2 h2, hf]
  have hold : prunedFocus q1 root ev1 = prunedFocus q2 root ev2 := by
    unfold prunedFocus; rw [hfp, hf]
  have hhandlers : a.handlers = b.handlers := by
    rw [ha2, hb2]; exact pruneHandlers_frameWalk_congr q1 q2 root ev1 ev2
  refine ⟨a, eva, b, evb, hFa, hFb, ?_, ?_, ?_, hhandlers⟩
  · rw [ha1, hb1, hk]
  · rw [keyQueue.InputState, keyQueue.InputState, ha3, hb3, hk, hp, hh, hfp, hold]
  · intro K; rw [hhandlers]

/-- C13 at two states with the focus on identity 1: one has only identity 1 registered and
the directive `TextInputOpen`, the other also has identity 2 registered. -/
theorem Frame_reads_only_focus_witness :
    (keyQueue.zero.afterFrame [.KeyHandler true 1] []).focus
      = (keyQueue.zero.afterFrame [.KeyHandler false 2, .KeyHandler true 1] []).focus ∧
    ∃ (a : keyQueue) (eva : handlerEvents) (b : keyQueue) (evb : handlerEvents),
      (keyQueue.zero.afterFrame [.KeyHandler true 1] []).Frame
          [.KeyHandler false 3, .HideInput] [] = .ok (a, eva) ∧
      (keyQueue.zero.afterFrame [.KeyHandler false 2, .KeyHandler true 1] []).Frame
          [.KeyHandler false 3, .HideInput] [SinkCall.Add 1 (Event.other 0)] = .ok (b, evb) ∧
      a.focus = b.focus ∧
      a.InputState = b.InputState ∧
      (∀ K : Key, (a.handlers K).isSome = (b.handlers K).isSome) ∧
      a.handlers = b.handlers :=
  ⟨rfl,
   Frame_reads_only_focus (keyQueue.zero.afterFrame [.KeyHandler true 1] [])
    (keyQueue.zero.afterFrame [.KeyHandler false 2, .KeyHandler true 1] [])
    (Reachable.frame keyQueue.zero [.KeyHandler true 1] [] _
      [SinkCall.Set 1 [Event.FocusEvent false], SinkCall.Add 1 (Event.FocusEvent true)]
      Reachable.zero rfl)
    (Reachable.frame keyQueue.zero [.KeyHandler false 2, .KeyHandler true 1] [] _
      [SinkCall.Set 2 [Event.FocusEvent false], SinkCall.Set 1 [Event.FocusEvent false],
        SinkCall.Add 1 (Event.FocusEvent true)]
      Reachable.zero rfl)
    rfl [.KeyHandler false 3, .HideInput] [] [SinkCall.Add 1 (Event.other 0)]⟩


/-! ## Scope markers (C14) -/

theorem processedAt_of_matched (ops : List EncodedOp) :
    ∀ d : Nat, popsMatchedAt d ops = true →
      processedAt d ops = ops.filter fun op => !op.isMarker := by
  induction ops with
  | nil => intro d _; rfl
  | cons op rest ih =>
    intro d h
    cases op with
    | Push => simp only [List.filter_cons, EncodedOp.isMarker]; exact ih (d + 1) h
    | Pop =>
      cases d with
      | zero => simp [popsMatchedAt] at h
      | succ d => simp only [List.filter_cons, EncodedOp.isMarker]; exact ih d h
    | KeyHandler f key =>
      simp only [List.filter_cons, EncodedOp.isMarker, processedAt]
      exact congrArg (List.cons _) (ih d h)
    | HideInput =>
      simp only [List.filter_cons, EncodedOp.isMarker, processedAt]
      exact congrArg (List.cons _) (ih d h)
    | Other tag =>
      simp only [List.filter_cons, EncodedOp.isMarker, processedAt]
      exact congrArg (List.cons _) (ih d h)

theorem processedAt_of_no_marker (xs : List EncodedOp) :
    ∀ d : Nat, (∀ op ∈ xs, op.isMarker = false) → processedAt d xs = xs := by
  induction xs with
  | nil => intro d _; rfl
  | cons op rest ih =>
    intro d h
    have hrest : ∀ x ∈ rest, x.isMarker = false := fun x hx => h x (List.mem_cons_of_mem _ hx)
    have hop := h op (List.mem_cons_self _ _)
    cases op with
    | Push => simp [EncodedOp.isMarker] at hop
    | Pop => simp [EncodedOp.isMarker] at hop
    | KeyHandler f key => exact congrArg (List.cons _) (ih d hrest)
    | HideInput => exact congrArg (List.cons _) (ih d hrest)
    | Other tag => exact congrArg (List.cons _) (ih d hrest)

theorem processedAt_filter_markers (ops : List EncodedOp) :
    processedAt 0 (ops.filter fun op => !op.isMarker) = ops.filter fun op => !op.isMarker := by
  apply processedAt_of_no_marker
  intro op h
  have := (List.mem_filter.1 h).2
  simpa using this

/-- C14. On a stream whose every `TypePop` matches an earlier `TypePush`, `resolveFocus`
returns the same winner, priority and hide flag, leaves the same registry and makes
the same sink calls as on the stream with every `TypePush` and `TypePop` deleted; all
of them are those of one left-to-right fold of the records that are not markers. -/
theorem resolveFocus_scope_markers_transparent (q : keyQueue) (events : handlerEvents)
    (fuel : Nat) (hfuel : q.reader.length < fuel) (hm : popsMatched q.reader = true) :
    ∃ (r : Option Key × listenerPriority × Bool) (q1 q2 : keyQueue) (ev1 : handlerEvents),
      q.resolveFocus fuel events = .ok (r, q1, ev1) ∧
      keyQueue.resolveFocus fuel
          { q with reader := q.reader.filter fun op => !op.isMarker } events
        = .ok (r, q2, ev1) ∧
      q1.handlers = q2.handlers ∧
      r = (((q.reader.filter fun op => !op.isMarker).foldl (Walk.step q.focus)
              (Walk.start q events)).k,
           ((q.reader.filter fun op => !op.isMarker).foldl (Walk.step q.focus)
              (Walk.start q events)).pri,
           ((q.reader.filter fun op => !op.isMarker).foldl (Walk.step q.focus)
              (Walk.start q events)).hide) ∧
      q1.handlers = ((q.reader.filter fun op => !op.isMarker).foldl (Walk.step q.focus)
              (Walk.start q events)).handlers ∧
      ev1 = ((q.reader.filter fun op => !op.isMarker).foldl (Walk.step q.focus)
              (Walk.start q events)).events := by
  have hlen : (q.reader.filter fun op => !op.isMarker).length < fuel :=
    lt_of_le_of_lt (List.length_filter_le _ _) hfuel
  have h1 := keyQueue.resolveFocus_eq q events fuel hfuel
  have h2 := keyQueue.resolveFocus_eq
    { q with reader := q.reader.filter fun op => !op.isMarker } events fuel hlen
  simp only [Walk.run, processedAt_filter_markers] at h2
  simp only [Walk.run, processedAt_of_matched q.reader 0 hm] at h1
  refine ⟨_, _, _, _, h1, h2, rfl, rfl, rfl, rfl⟩

/-- C14 at a stream with two nested scopes, the inner one left open. -/
theorem resolveFocus_scope_markers_transparent_witness :
    popsMatched [.KeyHandler false 1, .Push, .HideInput, .KeyHandler true 2, .Pop, .Push,
        .Push, .KeyHandler true 3] = true ∧
    ∃ (r : Option Key × listenerPriority × Bool) (q1 q2 : keyQueue) (ev1 : handlerEvents),
      keyQueue.resolveFocus 9
          { focus := some 1, handlers := fun _ => none,
            reader := [.KeyHandler false 1, .Push, .HideInput, .KeyHandler true 2, .Pop, .Push,
              .Push, .KeyHandler true 3],
            state := .TextInputKeep } [] = .ok (r, q1, ev1) ∧
      keyQueue.resolveFocus 9
          { focus := some 1, handlers := fun _ => none,
            reader := [.KeyHandler false 1, .HideInput, .KeyHandler true 2, .KeyHandler true 3],
            state := .TextInputKeep } [] = .ok (r, q2, ev1) ∧
      q1.handlers = q2.handlers ∧
      r = (some 3, .priNewFocus, true) :=
  ⟨by decide,
   (resolveFocus_scope_markers_transparent
      { focus := some 1, handlers := fun _ => none,
        reader := [.KeyHandler false 1, .Push, .HideInput, .KeyHandler true 2, .Pop, .Push,
          .Push, .KeyHandler true 3],
        state := .TextInputKeep } [] 9 (by decide) (by decide)).imp
    fun _ h => h.imp fun _ h => h.imp fun _ h => h.imp fun _ h => ⟨h.1, h.2.1, h.2.2.1, h.2.2.2.1⟩⟩


/-! ## The focus after a frame (C15, C16, C17) and `Push` (C19) -/

theorem Walk.step_k_isSome (focus : Option Key) (w : Walk) (op : EncodedOp)
    (h : w.k ≠ none ∧ w.pri ≠ .priNone) :
    (Walk.step focus w op).k ≠ none ∧ (Walk.step focus w op).pri ≠ .priNone := by
  cases op with
  | KeyHandler f key =>
    obtain ⟨hk, hp⟩ := h
    rcases focus with _ | a
    · cases f <;> cases hw : w.pri <;>
        simp_all [Walk.step, listenerPriority.replaces, listenerPriority.toNat]
    · by_cases hfo : key = a <;> cases f <;> cases hw : w.pri <;>
        simp_all [Walk.step, listenerPriority.replaces, listenerPriority.toNat]
  | HideInput => exact h
  | Push => exact h
  | Pop => exact h
  | Other tag => exact h

theorem Walk.foldl_k_isSome (focus : Option Key) (xs : List EncodedOp) :
    ∀ w : Walk, w.k ≠ none ∧ w.pri ≠ .priNone →
      (xs.foldl (Walk.step focus) w).k ≠ none := by
  induction xs with
  | nil => intro w h; exact h.1
  | cons op rest ih => intro w h; exact ih _ (Walk.step_k_isSome focus w op h)

theorem Walk.foldl_k_ne_none (focus : Option Key) (xs : List EncodedOp) :
    ∀ w : Walk, w.pri = .priNone → declared xs ≠ [] →
      (xs.foldl (Walk.step focus) w).k ≠ none := by
  induction xs with
  | nil => intro w _ h; exact absurd rfl h
  | cons op rest ih =>
    intro w hp hd
    rw [List.foldl_cons]
    cases op with
    | KeyHandler f key =>
      apply Walk.foldl_k_isSome
      rcases focus with _ | a
      · cases f <;>
          simp [Walk.step, hp, listenerPriority.replaces, listenerPriority.toNat]
      · by_cases hfo : key = a <;> cases f <;>
          simp [Walk.step, hp, hfo, listenerPriority.replaces, listenerPriority.toNat]
    | HideInput =>
      rw [declared_cons_of_not_key _ _ (by intro f k; simp)] at hd
      exact ih _ hp hd
    | Push =>
      rw [declared_cons_of_not_key _ _ (by intro f k; simp)] at hd
      exact ih _ hp hd
    | Pop =>
      rw [declared_cons_of_not_key _ _ (by intro f k; simp)] at hd
      exact ih _ hp hd
    | Other tag =>
      rw [declared_cons_of_not_key _ _ (by intro f k; simp)] at hd
      exact ih _ hp hd

theorem frameWalk_k_eq_none_iff (q : keyQueue) (root : List EncodedOp)
    (events : handlerEvents) :
    (frameWalk q root events).k = none ↔ declared (processed root) = [] := by
  constructor
  · intro h
    by_contra hd
    exact Walk.foldl_k_ne_none q.focus (processedAt 0 root) _ rfl hd h
  · intro hd
    cases hk : (frameWalk q root events).k with
    | none => rfl
    | some a =>
      have := frameWalk_k_declared q root events a hk
      rw [hd] at this
      exact absurd this (List.not_mem_nil _)

/-- C15. After any frame the focus is the candidate `resolveFocus` returned, and it is nil
exactly when no key handler record was processed, which is exactly when the registry
is empty; when a listener is declared, a declared listener holds the focus. -/
theorem Frame_focus_is_candidate (q : keyQueue) (root : List EncodedOp)
    (events : handlerEvents) :
    ∃ (c : Option Key) (pri : listenerPriority) (hide : Bool) (q1 : keyQueue)
      (ev1 : handlerEvents) (q2 : keyQueue) (ev2 : handlerEvents),
      keyQueue.resolveFocus (root.length + 1)
          { q with handlers := resetActive q.handlers, reader := root } events
        = .ok ((c, pri, hide), q1, ev1) ∧
      q.Frame root events = .ok (q2, ev2) ∧
      q2.focus = c ∧
      (q2.focus = none ↔ declared (processed root) = []) ∧
      (q2.focus = none ↔ ∀ K : Key, q2.handlers K = none) ∧
      (declared (processed root) ≠ [] →
        ∃ K ∈ declared (processed root), q2.focus = some K) := by
  obtain ⟨q2, ev2, hF, hfocus, hhandlers, -, -, -⟩ := keyQueue.Frame_eq q root events
  obtain ⟨q1, ev1, hres⟩ := frame_resolveFocus_exists q root events
  have hnone := frameWalk_k_eq_none_iff q root events
  refine ⟨_, _, _, q1, ev1, q2, ev2, hres, hF, hfocus, ?_, ?_, ?_⟩
  · rw [hfocus]; exact hnone
  · rw [hfocus, hnone, hhandlers]
    constructor
    · intro hd K
      rw [pruneHandlers_frameWalk, hd]
      simp
    · intro h
      apply List.eq_nil_iff_forall_not_mem.2
      intro K hK
      have := h K
      rw [pruneHandlers_frameWalk, if_pos hK] at this
      exact absurd this (by simp)
  · intro hd
    cases hk : (frameWalk q root events).k with
    | none => exact absurd (hnone.1 hk) hd
    | some a => exact ⟨a, frameWalk_k_declared q root events a hk, by rw [hfocus, hk]⟩

theorem freshSets_addressedTo (handlers : Key → Option keyHandler) (xs : List EncodedOp)
    (a : Key) (ha : a ∉ declared xs) :
    ∀ call ∈ freshSets handlers xs, call.addressedTo a = false := by
  intro call h
  simp only [freshSets, List.mem_map, List.mem_filter, mem_firstOccurrences] at h
  obtain ⟨j, ⟨hj, -⟩, rfl⟩ := h
  have : j ≠ a := fun e => ha (e ▸ hj)
  simp [SinkCall.addressedTo, this]

/-- C16. In a reachable state whose focus is the identity `A`, a frame on a stream that does
not declare `A` makes no sink call addressed to `A`, neither `Add` nor `Set`; in
particular `A` gets no `FocusEvent{false}`. -/
theorem Frame_stale_focus_not_notified (q : keyQueue) (hq : Reachable q) (A : Key)
    (hA : q.focus = some A) (root : List EncodedOp) (events : handlerEvents)
    (hnd : A ∉ declared root) :
    ∃ (q2 : keyQueue) (calls : List SinkCall),
      q.Frame root events = .ok (q2, events ++ calls) ∧
      (∀ call ∈ calls, call.addressedTo A = false) ∧
      SinkCall.Add A (Event.FocusEvent false) ∉ calls := by
  obtain ⟨q2, ev2, hF, -, -, -, -, hev⟩ := keyQueue.Frame_eq q root events
  have hreg := reachable_focus_active q hq A hA
  have hndp : A ∉ declared (processed root) := fun h => hnd (declared_processed_subset root A h)
  have hold : prunedFocus q root events = none := by
    rw [prunedFocus_eq]; simp [focusAfterPruning, hA, hreg, hndp]
  rw [frameWalk_events, hold, List.append_assoc] at hev
  subst hev
  have hall : ∀ call ∈ freshSets q.handlers (processed root)
      ++ focusAdds none (frameWalk q root events).k, call.addressedTo A = false := by
    intro call h
    rcases List.mem_append.1 h with h | h
    · exact freshSets_addressedTo q.handlers (processed root) A hndp call h
    · cases hk : (frameWalk q root events).k with
      | none => simp [focusAdds, hk] at h
      | some b =>
        have hb : b ≠ A := fun e => hndp (e ▸ frameWalk_k_declared q root events b hk)
        simp [focusAdds, hk] at h
        subst h
        simp [SinkCall.addressedTo, hb]
  refine ⟨q2, _, hF, hall, ?_⟩
  intro h
  have := hall _ h
  simp [SinkCall.addressedTo] at this

/-- C16 at the state left by a frame that gave the focus to identity 1, and a stream that
declares only identity 2. -/
theorem Frame_stale_focus_not_notified_witness :
    (keyQueue.zero.afterFrame [.KeyHandler true 1] []).focus = some 1 ∧
    ∃ (q2 : keyQueue) (calls : List SinkCall),
      (keyQueue.zero.afterFrame [.KeyHandler true 1] []).Frame [.KeyHandler false 2] []
        = .ok (q2, [] ++ calls) ∧
      (∀ call ∈ calls, call.addressedTo 1 = false) ∧
      SinkCall.Add 1 (Event.FocusEvent false) ∉ calls :=
  ⟨rfl,
   Frame_stale_focus_not_notified (keyQueue.zero.afterFrame [.KeyHandler true 1] [])
    (Reachable.frame keyQueue.zero [.KeyHandler true 1] [] _
      [SinkCall.Set 1 [Event.FocusEvent false], SinkCall.Add 1 (Event.FocusEvent true)]
      Reachable.zero rfl)
    1 rfl [.KeyHandler false 2] [] (by decide)⟩


theorem keyQueue.FrameWithoutNilBranch_eq (q : keyQueue) (root : List EncodedOp)
    (events : handlerEvents)
    (h : prunedFocus q root events ≠ none → (frameWalk q root events).k ≠ none) :
    q.FrameWithoutNilBranch root events = q.Frame root events := by
  have hr := keyQueue.resolveFocus_eq
    { q with handlers := resetActive q.handlers, reader := root } events (root.length + 1)
    (Nat.lt_succ_self _)
  have hw : Walk.run q.focus 0 root
      (Walk.start { q with handlers := resetActive q.handlers, reader := root } events)
      = frameWalk q root events := rfl
  have ho : ∀ w : Walk, w = frameWalk q root events →
      (if focusPruned w.handlers q.focus = true then none else q.focus)
        = prunedFocus q root events := by
    intro w hw; subst hw; rfl
  simp only [keyQueue.Frame, keyQueue.FrameWithoutNilBranch, hr, Walk.resolved, hw, ho _ rfl]
  revert h
  generalize prunedFocus q root events = old
  generalize focusPruned (frameWalk q root events).handlers q.focus = fp
  generalize frameWalk q root events = w
  obtain ⟨k, pri, hide, hs, ev⟩ := w
  intro h
  cases k with
  | some b => rfl
  | none =>
    cases old with
    | none => rfl
    | some a => exact absurd rfl (h (by simp))

theorem prunedFocus_reachable (q : keyQueue) (hq : Reachable q) (root : List EncodedOp)
    (events : handlerEvents) (h : prunedFocus q root events ≠ none) :
    (frameWalk q root events).k ≠ none := by
  rw [prunedFocus_eq] at h
  intro hk
  have hd := (frameWalk_k_eq_none_iff q root events).1 hk
  apply h
  unfold focusAfterPruning
  cases hf : q.focus with
  | none => rfl
  | some a => simp [reachable_focus_active q hq a hf, hd]

/-- C17. In a reachable state the branch of `Frame` that sets `hide` when the focus changes
to nil (key.go 72-74) is never taken: when the focus left by the pruning is an
identity, so is the candidate; hence `Frame` without that branch returns the same
queue and the same sink. -/
theorem Frame_nil_branch_dead (q : keyQueue) (hq : Reachable q) (root : List EncodedOp)
    (events : handlerEvents) :
    ∃ (c : Option Key) (pri : listenerPriority) (hide : Bool) (q1 : keyQueue)
      (ev1 : handlerEvents),
      keyQueue.resolveFocus (root.length + 1)
          { q with handlers := resetActive q.handlers, reader := root } events
        = .ok ((c, pri, hide), q1, ev1) ∧
      (focusAfterPruning q root ≠ none → c ≠ none) ∧
      q.FrameWithoutNilBranch root events = q.Frame root events := by
  obtain ⟨q1, ev1, hres⟩ := frame_resolveFocus_exists q root events
  refine ⟨_, _, _, q1, ev1, hres, ?_, ?_⟩
  · intro h
    exact prunedFocus_reachable q hq root events (by rw [prunedFocus_eq]; exact h)
  · exact keyQueue.FrameWithoutNilBranch_eq q root events
      (prunedFocus_reachable q hq root events)

/-- C17 at the state left by a frame that gave the focus to identity 1, and the empty
stream. -/
theorem Frame_nil_branch_dead_witness :
    ∃ (c : Option Key) (pri : listenerPriority) (hide : Bool) (q1 : keyQueue)
      (ev1 : handlerEvents),
      keyQueue.resolveFocus ([] : List EncodedOp).length.succ
          { keyQueue.zero.afterFrame [.KeyHandler true 1] [] with
            handlers := resetActive (keyQueue.zero.afterFrame [.KeyHandler true 1] []).handlers,
            reader := [] } []
        = .ok ((c, pri, hide), q1, ev1) ∧
      (focusAfterPruning (keyQueue.zero.afterFrame [.KeyHandler true 1] []) [] ≠ none →
        c ≠ none) ∧
      (keyQueue.zero.afterFrame [.KeyHandler true 1] []).FrameWithoutNilBranch [] []
        = (keyQueue.zero.afterFrame [.KeyHandler true 1] []).Frame [] [] :=
  Frame_nil_branch_dead (keyQueue.zero.afterFrame [.KeyHandler true 1] [])
    (Reachable.frame keyQueue.zero [.KeyHandler true 1] [] _
      [SinkCall.Set 1 [Event.FocusEvent false], SinkCall.Add 1 (Event.FocusEvent true)]
      Reachable.zero rfl)
    [] []

/-- Outside the reachable states the nil branch can be taken: a focus that is not
registered, on the empty stream; there the two frames differ in the directive. -/
theorem Frame_nil_branch_taken_unreachable :
    observe (keyQueue.Frame
        { focus := some 1, handlers := fun _ => none, reader := [], state := .TextInputKeep }
        [] [])
      = some (none, .TextInputClose, [SinkCall.Add 1 (Event.FocusEvent false)]) ∧
    observe (keyQueue.FrameWithoutNilBranch
        { focus := some 1, handlers := fun _ => none, reader := [], state := .TextInputKeep }
        [] [])
      = some (none, .TextInputKeep, [SinkCall.Add 1 (Event.FocusEvent false)]) := by
  decide

/-- C19. `Push` makes exactly one sink call, `Add(q.focus, e)`, when the focus is not nil and
none when it is nil, and leaves the queue (focus, registry, reader, directive) as it
was. -/
theorem Push_delivers_to_focus (q : keyQueue) (e : Event) (events : handlerEvents) :
    (q.Push e events).1 = q ∧
    (q.Push e events).2
      = events ++ (match q.focus with
          | some k => [SinkCall.Add k e]
          | none => []) := by
  unfold keyQueue.Push
  cases q.focus with
  | none => simp
  | some k => simp [handlerEvents.Add]

end input
